import Mathlib

/-!
Shallow embedding of the agentsdk-go runtime kernel pieces exercised by the
frozen claims: the approval whitelist parameter hashing (pkg/approval/whitelist.go),
the approval queue (pkg/approval/queue.go), the record-log retention GC
(approval GC file), the file-backed session store (pkg/session/file.go), the
middleware stack (pkg/middleware/stack.go) and the streaming bash accumulator.
Go maps are modelled as association lists, machine integers as Nat/Int, byte
strings as Lean strings or lists, and fallible I/O as an explicit
success/failure oracle argument.
-/

namespace AgentSDK

/-- Value mirrors the dynamic `any` values stored in tool params
(`map[string]any` decoded from JSON): strings, numbers, booleans, null,
nested maps, nested `[]any` sequences and `[]string` sequences, exactly the
cases `encodeValue` in pkg/approval/whitelist.go distinguishes. -/
inductive Value where
  | vstr : String → Value
  | vnum : Int → Value
  | vbool : Bool → Value
  | vnull : Value
  | vmap : List (String × Value) → Value
  | varr : List Value → Value
  | vstrs : List String → Value

/-- Params is the association-list model of a Go `map[string]any`. -/
abbrev Params := List (String × Value)

/-- insertPair inserts a key/value pair into a key-sorted association list,
keeping it sorted by key (stable: equal keys keep their relative order). -/
def insertPair (x : String × Value) : List (String × Value) → List (String × Value)
  | [] => [x]
  | y :: ys => if x.1 ≤ y.1 then x :: y :: ys else y :: insertPair x ys

/-- sortPairs sorts an association list by key (insertion sort). For the
duplicate-free key sets of a Go map this produces exactly the traversal order
of `encodeValue`, which sorts the map keys with sort.Strings and visits the
entries in that order. -/
def sortPairs : List (String × Value) → List (String × Value)
  | [] => []
  | x :: xs => insertPair x (sortPairs xs)

theorem insertPair_sizeOf (x : String × Value) (l : List (String × Value)) :
    sizeOf (insertPair x l) = sizeOf (x :: l) := by
  induction l with
  | nil => simp [insertPair]
  | cons y ys ih =>
    simp only [insertPair]
    split
    · rfl
    · simp only [List.cons.sizeOf_spec] at *
      omega

theorem sortPairs_sizeOf (l : List (String × Value)) :
    sizeOf (sortPairs l) = sizeOf l := by
  induction l with
  | nil => rfl
  | cons x xs ih =>
    simp only [sortPairs, insertPair_sizeOf, List.cons.sizeOf_spec]
    omega

/-- encodeStrs renders a `[]string` exactly as the Go loop does: each element
followed by a comma. -/
def encodeStrs : List String → String
  | [] => ""
  | s :: rest => s ++ "," ++ encodeStrs rest

mutual

/-- encodeValue mirrors `encodeValue` of pkg/approval/whitelist.go: a
deterministic traversal over maps (entries visited in sorted key order) and
slices; scalar leaves are rendered the way `fmt.Fprintf(buf, "%v", val)`
renders them. -/
def encodeValue : Value → String
  | .vstr s => s
  | .vnum n => toString n
  | .vbool b => toString b
  | .vnull => "<nil>"
  | .vmap kvs => "\x7b" ++ encodePairs (sortPairs kvs) ++ "\x7d"
  | .varr items => "[" ++ encodeItems items ++ "]"
  | .vstrs ss => "[" ++ encodeStrs ss ++ "]"
termination_by v => sizeOf v
decreasing_by
  all_goals simp_wf
  all_goals try rw [sortPairs_sizeOf]
  all_goals omega

/-- encodePairs renders already-key-sorted map entries as `k:v;` runs,
matching the Go loop body `buf.WriteString(k); buf.WriteString(":");
encodeValue(buf, val[k]); buf.WriteString(";")`. -/
def encodePairs : List (String × Value) → String
  | [] => ""
  | (k, v) :: rest => k ++ ":" ++ encodeValue v ++ ";" ++ encodePairs rest
termination_by l => sizeOf l
decreasing_by
  all_goals simp_wf <;> omega

/-- encodeItems renders `[]any` elements in order, each followed by a comma. -/
def encodeItems : List Value → String
  | [] => ""
  | v :: rest => encodeValue v ++ "," ++ encodeItems rest
termination_by l => sizeOf l
decreasing_by
  all_goals simp_wf <;> omega

end

mutual

/-- normalizeValue recursively sorts every nested map of a value by key,
leaving sequences in order: two values denote the same JSON-style contents
(same key/value sets in every nested map, same element order in every
sequence) exactly when their normalizations are equal. -/
def normalizeValue : Value → Value
  | .vstr s => .vstr s
  | .vnum n => .vnum n
  | .vbool b => .vbool b
  | .vnull => .vnull
  | .vmap kvs => .vmap (sortPairs (normalizePairs kvs))
  | .varr items => .varr (normalizeItems items)
  | .vstrs ss => .vstrs ss

/-- normalizePairs normalizes every value of an association list. -/
def normalizePairs : List (String × Value) → List (String × Value)
  | [] => []
  | p :: rest => (p.1, normalizeValue p.2) :: normalizePairs rest

/-- normalizeItems normalizes every element of a sequence. -/
def normalizeItems : List Value → List Value
  | [] => []
  | v :: rest => normalizeValue v :: normalizeItems rest

end

/-- normalizeParams is normalizeValue specialized to a top-level params map. -/
def normalizeParams (p : Params) : Params := sortPairs (normalizePairs p)

/-- KeyLE compares association-list entries by key. -/
abbrev KeyLE (a b : String × Value) : Prop := a.1 ≤ b.1

theorem insertPair_perm (x : String × Value) (l : List (String × Value)) :
    List.Perm (insertPair x l) (x :: l) := by
  induction l with
  | nil => simp [insertPair]
  | cons y ys ih =>
    simp only [insertPair]
    by_cases h : x.1 ≤ y.1
    · simp [h]
    · simp only [if_neg h]
      exact (ih.cons y).trans (List.Perm.swap x y ys)

theorem sortPairs_perm (l : List (String × Value)) :
    List.Perm (sortPairs l) l := by
  induction l with
  | nil => simp [sortPairs]
  | cons x xs ih => exact (insertPair_perm x (sortPairs xs)).trans (ih.cons x)

theorem mem_insertPair {z x : String × Value} {l : List (String × Value)}
    (h : z ∈ insertPair x l) : z = x ∨ z ∈ l :=
  List.mem_cons.mp ((insertPair_perm x l).mem_iff.mp h)

theorem insertPair_pairwise {x : String × Value} {l : List (String × Value)}
    (h : List.Pairwise KeyLE l) : List.Pairwise KeyLE (insertPair x l) := by
  induction l with
  | nil => simp [insertPair]
  | cons y ys ih =>
    rcases List.pairwise_cons.mp h with ⟨hy, hys⟩
    simp only [insertPair]
    by_cases hle : x.1 ≤ y.1
    · simp only [if_pos hle]
      refine List.pairwise_cons.mpr ⟨?_, h⟩
      intro z hz
      rcases List.mem_cons.mp hz with rfl | hz
      · exact hle
      · exact le_trans hle (hy z hz)
    · simp only [if_neg hle]
      refine List.pairwise_cons.mpr ⟨?_, ih hys⟩
      intro z hz
      rcases mem_insertPair hz with rfl | hz
      · exact le_of_not_le hle
      · exact hy z hz

theorem sortPairs_pairwise (l : List (String × Value)) :
    List.Pairwise KeyLE (sortPairs l) := by
  induction l with
  | nil => simp [sortPairs]
  | cons x xs ih => exact insertPair_pairwise ih

theorem sortPairs_eq_self_of_pairwise {l : List (String × Value)}
    (h : List.Pairwise KeyLE l) : sortPairs l = l := by
  induction l with
  | nil => rfl
  | cons x xs ih =>
    rcases List.pairwise_cons.mp h with ⟨hx, hxs⟩
    simp only [sortPairs, ih hxs]
    cases xs with
    | nil => rfl
    | cons y ys =>
      simp only [insertPair, if_pos (hx y (List.mem_cons_self y ys))]

theorem sortPairs_idem (l : List (String × Value)) :
    sortPairs (sortPairs l) = sortPairs l :=
  sortPairs_eq_self_of_pairwise (sortPairs_pairwise l)

/-- mapSnd applies a function to every value of an association list. -/
def mapSnd (f : Value → Value) : List (String × Value) → List (String × Value)
  | [] => []
  | (k, v) :: rest => (k, f v) :: mapSnd f rest

theorem insertPair_mapSnd (f : Value → Value) (k : String) (v : Value)
    (l : List (String × Value)) :
    insertPair (k, f v) (mapSnd f l) = mapSnd f (insertPair (k, v) l) := by
  induction l with
  | nil => simp [insertPair, mapSnd]
  | cons y ys ih =>
    obtain ⟨ky, vy⟩ := y
    simp only [mapSnd, insertPair]
    by_cases hle : k ≤ ky
    · simp [hle, mapSnd]
    · simp [hle, mapSnd, ih]

theorem sortPairs_mapSnd (f : Value → Value) (l : List (String × Value)) :
    sortPairs (mapSnd f l) = mapSnd f (sortPairs l) := by
  induction l with
  | nil => simp [sortPairs, mapSnd]
  | cons x xs ih =>
    obtain ⟨k, v⟩ := x
    simp only [mapSnd, sortPairs]
    rw [ih, insertPair_mapSnd]

theorem normalizePairs_eq_mapSnd (l : List (String × Value)) :
    normalizePairs l = mapSnd normalizeValue l := by
  induction l with
  | nil => rfl
  | cons p rest ih =>
    obtain ⟨k, v⟩ := p
    simp [normalizePairs, mapSnd, ih]

theorem normalizeItems_eq_map (l : List Value) :
    normalizeItems l = l.map normalizeValue := by
  induction l with
  | nil => rfl
  | cons v rest ih => simp [normalizeItems, ih]

theorem encodePairs_mapSnd_congr (f : Value → Value) (l : List (String × Value))
    (h : ∀ p ∈ l, encodeValue (f p.2) = encodeValue p.2) :
    encodePairs (mapSnd f l) = encodePairs l := by
  induction l with
  | nil => rfl
  | cons p rest ih =>
    obtain ⟨k, v⟩ := p
    simp only [mapSnd, encodePairs]
    rw [h (k, v) (List.mem_cons_self _ _), ih (fun q hq => h q (List.mem_cons_of_mem _ hq))]

theorem encodeItems_map_congr (f : Value → Value) (l : List Value)
    (h : ∀ v ∈ l, encodeValue (f v) = encodeValue v) :
    encodeItems (l.map f) = encodeItems l := by
  induction l with
  | nil => rfl
  | cons v rest ih =>
    simp only [List.map_cons, encodeItems]
    rw [h v (List.mem_cons_self _ _), ih (fun w hw => h w (List.mem_cons_of_mem _ hw))]

/-- encodeValue is invariant under recursive key-sorting of nested maps: the
traversal of pkg/approval/whitelist.go depends only on a value's contents,
not on map ordering. -/
theorem encodeValue_normalize (v : Value) :
    encodeValue (normalizeValue v) = encodeValue v := by
  have H : ∀ n : Nat, ∀ w : Value, sizeOf w ≤ n →
      encodeValue (normalizeValue w) = encodeValue w := by
    intro n
    induction n with
    | zero =>
      intro w hw
      exfalso
      cases w <;> simp at hw
    | succ n ih =>
      intro w hw
      cases w with
      | vstr s => rfl
      | vnum m => rfl
      | vbool b => rfl
      | vnull => rfl
      | vstrs ss => rfl
      | vmap kvs =>
        have hsz : sizeOf kvs ≤ n := by
          simp only [Value.vmap.sizeOf_spec] at hw
          omega
        simp only [normalizeValue, encodeValue]
        rw [normalizePairs_eq_mapSnd, sortPairs_mapSnd, ← sortPairs_mapSnd,
          sortPairs_idem, sortPairs_mapSnd]
        congr 2
        apply encodePairs_mapSnd_congr
        intro p hp
        have hmem : p ∈ kvs := (sortPairs_perm kvs).mem_iff.mp hp
        have hlt : sizeOf p < sizeOf kvs := List.sizeOf_lt_of_mem hmem
        obtain ⟨k, val⟩ := p
        have : sizeOf val ≤ n := by
          simp only [Prod.mk.sizeOf_spec] at hlt
          omega
        exact ih val this
      | varr items =>
        have hsz : sizeOf items ≤ n := by
          simp only [Value.varr.sizeOf_spec] at hw
          omega
        simp only [normalizeValue, encodeValue, normalizeItems_eq_map]
        congr 2
        apply encodeItems_map_congr
        intro w hwmem
        have hlt : sizeOf w < sizeOf items := List.sizeOf_lt_of_mem hwmem
        exact ih w (by omega)
  exact H (sizeOf v) v le_rfl

/-- w32 truncates to a 32-bit word, the modular arithmetic of Go uint32. -/
def w32 (n : Nat) : Nat := n % 4294967296

/-- rotr32 is a 32-bit right rotation. -/
def rotr32 (k x : Nat) : Nat := w32 (x / 2 ^ k + x % 2 ^ k * 2 ^ (32 - k))

/-- shr32 is a logical right shift. -/
def shr32 (k x : Nat) : Nat := x / 2 ^ k

/-- xor3 folds bitwise xor over three words. -/
def xor3 (a b c : Nat) : Nat := Nat.xor (Nat.xor a b) c

/-- shaSmallSigma0 is the sigma0 message-schedule function of SHA-256. -/
def shaSmallSigma0 (x : Nat) : Nat := xor3 (rotr32 7 x) (rotr32 18 x) (shr32 3 x)

/-- shaSmallSigma1 is the sigma1 message-schedule function of SHA-256. -/
def shaSmallSigma1 (x : Nat) : Nat := xor3 (rotr32 17 x) (rotr32 19 x) (shr32 10 x)

/-- shaBigSigma0 is the Sigma0 compression function of SHA-256. -/
def shaBigSigma0 (x : Nat) : Nat := xor3 (rotr32 2 x) (rotr32 13 x) (rotr32 22 x)

/-- shaBigSigma1 is the Sigma1 compression function of SHA-256. -/
def shaBigSigma1 (x : Nat) : Nat := xor3 (rotr32 6 x) (rotr32 11 x) (rotr32 25 x)

/-- shaCh is the choose function of SHA-256. -/
def shaCh (x y z : Nat) : Nat := Nat.xor (Nat.land x y) (Nat.land (Nat.xor x 4294967295) z)

/-- shaMaj is the majority function of SHA-256. -/
def shaMaj (x y z : Nat) : Nat :=
  Nat.xor (Nat.xor (Nat.land x y) (Nat.land x z)) (Nat.land y z)

/-- shaK lists the 64 SHA-256 round constants. -/
def shaK : List Nat :=
  [1116352408, 1899447441, 3049323471, 3921009573, 961987163, 1508970993,
   2453635748, 2870763221, 3624381080, 310598401, 607225278, 1426881987,
   1925078388, 2162078206, 2614888103, 3248222580, 3835390401, 4022224774,
   264347078, 604807628, 770255983, 1249150122, 1555081692, 1996064986,
   2554220882, 2821834349, 2952996808, 3210313671, 3336571891, 3584528711,
   113926993, 338241895, 666307205, 773529912, 1294757372, 1396182291,
   1695183700, 1986661051, 2177026350, 2456956037, 2730485921, 2820302411,
   3259730800, 3345764771, 3516065817, 3600352804, 4094571909, 275423344,
   430227734, 506948616, 659060556, 883997877, 958139571, 1322822218,
   1537002063, 1747873779, 1955562222, 2024104815, 2227730452, 2361852424,
   2428436474, 2756734187, 3204031479, 3329325298]

/-- shaH0 is the initial SHA-256 hash state. -/
def shaH0 : List Nat :=
  [1779033703, 3144134277, 1013904242, 2773480762,
   1359893119, 2600822924, 528734635, 1541459225]

/-- beBytes renders a number as k big-endian bytes. -/
def beBytes : Nat → Nat → List Nat
  | 0, _ => []
  | k + 1, n => beBytes k (n / 256) ++ [n % 256]

/-- shaPad appends the SHA-256 padding: a 0x80 byte, zeros up to 56 mod 64,
and the bit length as 8 big-endian bytes. -/
def shaPad (msg : List Nat) : List Nat :=
  let L := msg.length
  let r := (L + 1) % 64
  let z := if r ≤ 56 then 56 - r else 120 - r
  msg ++ [128] ++ List.replicate z 0 ++ beBytes 8 (8 * L)

/-- toWords packs bytes into big-endian 32-bit words. -/
def toWords : List Nat → List Nat
  | a :: b :: c :: d :: rest =>
      (a * 16777216 + b * 65536 + c * 256 + d) :: toWords rest
  | _ => []

/-- toBlocks splits a word list into 16-word blocks. -/
def toBlocks : List Nat → List (List Nat)
  | [] => []
  | w :: rest => (w :: rest).take 16 :: toBlocks ((w :: rest).drop 16)
termination_by l => l.length
decreasing_by
  simp_wf
  omega

/-- shaSchedule extends a 16-word block to the 64-word message schedule. -/
def shaSchedule (block : List Nat) : Array Nat :=
  (List.range 48).foldl
    (fun w j =>
      let i := j + 16
      w.push (w32 (shaSmallSigma1 (w.getD (i - 2) 0) + w.getD (i - 7) 0 +
        shaSmallSigma0 (w.getD (i - 15) 0) + w.getD (i - 16) 0)))
    block.toArray

/-- shaCompress runs the 64-round SHA-256 compression on one block. -/
def shaCompress (h : List Nat) (block : List Nat) : List Nat :=
  let w := shaSchedule block
  let st := (List.range 64).foldl
    (fun st i =>
      match st with
      | [a, b, c, d, e, f, g, hh] =>
        let t1 := w32 (hh + shaBigSigma1 e + shaCh e f g +
          shaK.getD i 0 + w.getD i 0)
        let t2 := w32 (shaBigSigma0 a + shaMaj a b c)
        [w32 (t1 + t2), a, b, c, w32 (d + t1), e, f, g]
      | other => other)
    h
  List.zipWith (fun x y => w32 (x + y)) h st

/-- sha256Words hashes a byte list to the eight 32-bit state words. -/
def sha256Words (msg : List Nat) : List Nat :=
  (toBlocks (toWords (shaPad msg))).foldl shaCompress shaH0

/-- hexDigits is the lowercase hexadecimal alphabet of hex.EncodeToString. -/
def hexDigits : List Char :=
  "0123456789abcdef".toList

/-- hexNat renders the low k hex digits of a number, most significant first. -/
def hexNat : Nat → Nat → String
  | 0, _ => ""
  | k + 1, n => hexNat k (n / 16) ++ String.singleton (hexDigits.getD (n % 16) '0')

/-- sha256Hex is the lowercase hex digest of a byte list, the composition of
crypto/sha256.Sum256 and hex.EncodeToString used by hashParams. -/
def sha256Hex (msg : List Nat) : String :=
  String.join ((sha256Words msg).map (hexNat 8))

/-- strBytes is the UTF-8 byte sequence of a string, the bytes a Go
bytes.Buffer accumulates. -/
def strBytes (s : String) : List Nat := s.toUTF8.toList.map (fun b => b.toNat)

/-- hashParams mirrors `hashParams` of pkg/approval/whitelist.go: the empty
map hashes to "empty", any other map to the hex SHA-256 of its deterministic
encoding. -/
def hashParams (params : Params) : String :=
  if params.isEmpty then "empty"
  else sha256Hex (strBytes (encodeValue (.vmap params)))

/-- whitelistKey mirrors `Whitelist.key`: sessionID, tool name and the params
hash joined with pipes. -/
def whitelistKey (sessionID tool : String) (params : Params) : String :=
  sessionID ++ "|" ++ tool ++ "|" ++ hashParams params

theorem normalizePairs_length (p : Params) :
    (normalizePairs p).length = p.length := by
  induction p with
  | nil => rfl
  | cons q rest ih => simp [normalizePairs, ih]

theorem normalizeParams_length (p : Params) :
    (normalizeParams p).length = p.length := by
  have h1 := (sortPairs_perm (normalizePairs p)).length_eq
  simpa [normalizeParams, normalizePairs_length] using h1

/-- hashParams_congr: params with equal normalizations hash identically.
Shared by the C2 and C6 developments. -/
theorem hashParams_congr {p q : Params}
    (h : normalizeParams p = normalizeParams q) : hashParams p = hashParams q := by
  have hlen : p.length = q.length := by
    have := congrArg List.length h
    simpa [normalizeParams_length] using this
  by_cases hp : p.isEmpty
  · have hq : q.isEmpty := by
      cases p <;> cases q <;> simp_all
    simp [hashParams, hp, hq]
  · have hq : ¬ q.isEmpty := by
      cases p <;> cases q <;> simp_all
    have henc : encodeValue (Value.vmap p) = encodeValue (Value.vmap q) := by
      calc encodeValue (Value.vmap p)
          = encodeValue (normalizeValue (Value.vmap p)) :=
            (encodeValue_normalize (Value.vmap p)).symm
        _ = encodeValue (normalizeValue (Value.vmap q)) := by
            simp only [normalizeValue]
            rw [show sortPairs (normalizePairs p) = normalizeParams p from rfl,
              show sortPairs (normalizePairs q) = normalizeParams q from rfl, h]
        _ = encodeValue (Value.vmap q) := encodeValue_normalize (Value.vmap q)
    simp [hashParams, hp, hq, henc]

/-- C6: hashParams is a deterministic function of a params map's contents:
any two maps with the same key/value contents - same entries in every nested
map regardless of key order, same elements in order in every nested sequence,
as witnessed by equal recursive normalizations - produce the same hash. -/
theorem c6_hashParams_order_independent (p q : Params)
    (h : normalizeParams p = normalizeParams q) : hashParams p = hashParams q :=
  hashParams_congr h

/-- Witness for C6: two concrete maps listing the same keys in different
orders, with a nested map also reordered, hash identically. -/
theorem c6_hashParams_order_independent_witness :
    normalizeParams
        [("b", Value.vnum 1), ("a", Value.vmap [("y", Value.vnum 2), ("x", Value.vnum 3)])] =
      normalizeParams
        [("a", Value.vmap [("x", Value.vnum 3), ("y", Value.vnum 2)]), ("b", Value.vnum 1)] ∧
    hashParams
        [("b", Value.vnum 1), ("a", Value.vmap [("y", Value.vnum 2), ("x", Value.vnum 3)])] =
      hashParams
        [("a", Value.vmap [("x", Value.vnum 3), ("y", Value.vnum 2)]), ("b", Value.vnum 1)] := by
  have hba : ¬ ((['b'] : List Char) ≤ ['a']) := by decide
  have hab : (['a'] : List Char) ≤ ['b'] := by decide
  have hyx : ¬ ((['y'] : List Char) ≤ ['x']) := by decide
  have hxy : (['x'] : List Char) ≤ ['y'] := by decide
  have hnorm : normalizeParams
        [("b", Value.vnum 1), ("a", Value.vmap [("y", Value.vnum 2), ("x", Value.vnum 3)])] =
      normalizeParams
        [("a", Value.vmap [("x", Value.vnum 3), ("y", Value.vnum 2)]), ("b", Value.vnum 1)] := by
    simp [normalizeParams, normalizePairs, normalizeValue, normalizeItems, sortPairs,
      insertPair, hba, hab, hyx, hxy]
  exact ⟨hnorm, c6_hashParams_order_independent _ _ hnorm⟩


/-- isWS recognizes the ASCII whitespace that strings.TrimSpace strips
(the sessions and tools of this development use ASCII identifiers). -/
def isWS (c : Char) : Bool := c = ' ' ∨ c = '\t' ∨ c = '\n' ∨ c = '\r'

/-- trimSpace models strings.TrimSpace: leading and trailing whitespace
removed. -/
def trimSpace (s : String) : String :=
  String.mk (((s.data.dropWhile isWS).reverse.dropWhile isWS).reverse)

/-- Decision mirrors the approval Decision lifecycle states. -/
inductive Decision where
  | pending
  | approved
  | rejected
  | timeout
deriving DecidableEq, Repr

/-- Record mirrors approval.Record; times are abstract instants (Nat). -/
structure Record where
  id : String
  sessionID : String
  tool : String
  params : Params
  decision : Decision
  requested : Nat
  decided : Option Nat
  comment : String
  auto : Bool

/-- Entry mirrors whitelist Entry: one admission scoped to session+tool+params. -/
structure Entry where
  sessionID : String
  tool : String
  signature : String
  createdAt : Nat

/-- upsert models Go map assignment m[k] = v on an association list. -/
def upsert {α : Type} (k : String) (v : α) : List (String × α) → List (String × α)
  | [] => [(k, v)]
  | (k2, v2) :: rest => if k = k2 then (k, v) :: rest else (k2, v2) :: upsert k v rest

/-- eraseKey models Go map delete(m, k): every binding of k is removed
(a Go map holds at most one). -/
def eraseKey {α : Type} (k : String) (l : List (String × α)) : List (String × α) :=
  l.filter (fun p => p.1 ≠ k)

theorem lookup_cons_key {α : Type} (k k2 : String) (v : α) (l : List (String × α)) :
    List.lookup k ((k2, v) :: l) = if k = k2 then some v else List.lookup k l := by
  by_cases h : k = k2
  · simp [List.lookup, h]
  · have hb : (k == k2) = false := by simp [h]
    simp [List.lookup, hb, h]

theorem lookup_upsert_self {α : Type} (k : String) (v : α) (l : List (String × α)) :
    List.lookup k (upsert k v l) = some v := by
  induction l with
  | nil => simp [upsert, lookup_cons_key]
  | cons p rest ih =>
    obtain ⟨k2, v2⟩ := p
    by_cases h : k = k2
    · simp [upsert, h, lookup_cons_key]
    · simp [upsert, h, lookup_cons_key, ih]

theorem lookup_upsert_other {α : Type} {k k2 : String} (h : k2 ≠ k) (v : α)
    (l : List (String × α)) :
    List.lookup k2 (upsert k v l) = List.lookup k2 l := by
  induction l with
  | nil => simp [upsert, lookup_cons_key, h]
  | cons p rest ih =>
    obtain ⟨k3, v3⟩ := p
    by_cases h3 : k = k3
    · subst h3
      simp [upsert, lookup_cons_key, h]
    · by_cases h2 : k2 = k3
      · simp [upsert, h3, lookup_cons_key, h2]
      · simp [upsert, h3, lookup_cons_key, h2, ih]

theorem eraseKey_cons {α : Type} (k k2 : String) (v : α) (l : List (String × α)) :
    eraseKey k ((k2, v) :: l) =
      if k2 = k then eraseKey k l else (k2, v) :: eraseKey k l := by
  by_cases h : k2 = k <;> simp [eraseKey, List.filter_cons, h]

theorem lookup_eraseKey_self {α : Type} (k : String) (l : List (String × α)) :
    List.lookup k (eraseKey k l) = none := by
  induction l with
  | nil => simp [eraseKey]
  | cons p rest ih =>
    obtain ⟨k2, v2⟩ := p
    rw [eraseKey_cons]
    by_cases h : k2 = k
    · simp [h, ih]
    · have hne : k ≠ k2 := fun hk => h hk.symm
      simp [h, lookup_cons_key, hne, ih]

theorem lookup_eraseKey_other {α : Type} {k k2 : String} (h : k2 ≠ k)
    (l : List (String × α)) :
    List.lookup k2 (eraseKey k l) = List.lookup k2 l := by
  induction l with
  | nil => simp [eraseKey]
  | cons p rest ih =>
    obtain ⟨k3, v3⟩ := p
    rw [eraseKey_cons]
    by_cases h3 : k3 = k
    · subst h3
      simp [lookup_cons_key, h, ih]
    · by_cases h2 : k2 = k3
      · simp [h3, lookup_cons_key, h2]
      · simp [h3, lookup_cons_key, h2, ih]

/-- newID supplies fresh record identifiers. Modelled from the source newID,
which draws 8 random bytes (collisions are assumed impossible): an injective
supply indexed by a counter. -/
def newID (n : Nat) : String := "rid-" ++ String.mk (List.replicate n 'x')

theorem newID_inj {m n : Nat} (h : newID m = newID n) : m = n := by
  have hlen := congrArg String.length h
  simpa [newID, String.length_append] using hlen

/-- whitelistAdd mirrors Whitelist.Add: idempotent insertion keyed by
whitelistKey. -/
def whitelistAdd (w : List (String × Entry)) (sessionID tool : String)
    (params : Params) (now : Nat) : List (String × Entry) :=
  let key := whitelistKey sessionID tool params
  if (List.lookup key w).isSome then w
  else
    let e : Entry :=
      { sessionID := sessionID
        tool := tool
        signature := key
        createdAt := now }
    (key, e) :: w

/-- Queue mirrors approval.Queue: the record index, the pending map, the
session whitelist and the backing store, plus the fresh-id counter and an
abstract clock standing for time.Now. -/
structure Queue where
  index : List (String × Record)
  pending : List (String × Record)
  whitelist : List (String × Entry)
  store : List (String × Record)
  nextId : Nat
  clock : Nat

/-- storeErrMsg stands for the error an underlying store surfaces from a
failed Append. -/
def storeErrMsg : String := "approval: store append failed"

/-- mkAutoRecord is the record the whitelist-hit branch of Queue.Request
builds: approved, auto, comment "whitelisted", decided at request time. -/
def Queue.mkAutoRecord (q : Queue) (sid tl : String) (p : Params) : Record :=
  { id := newID q.nextId
    sessionID := sid
    tool := tl
    params := p
    decision := .approved
    requested := q.clock + 1
    decided := some (q.clock + 1)
    comment := "whitelisted"
    auto := true }

/-- mkPendingRecord is the record the miss branch of Queue.Request builds. -/
def Queue.mkPendingRecord (q : Queue) (sid tl : String) (p : Params) : Record :=
  { id := newID q.nextId
    sessionID := sid
    tool := tl
    params := p
    decision := .pending
    requested := q.clock + 1
    decided := none
    comment := ""
    auto := false }

/-- afterIndexInsert updates the index (and id/clock bookkeeping) as the
whitelist-hit branch does before its ignored store append. -/
def Queue.afterIndexInsert (q : Queue) (r : Record) : Queue :=
  { q with
    index := upsert r.id r q.index
    nextId := q.nextId + 1
    clock := q.clock + 1 }

/-- afterPendingInsert updates index and pending map as the miss branch does
before attempting the store append. -/
def Queue.afterPendingInsert (q : Queue) (r : Record) : Queue :=
  { q with
    index := upsert r.id r q.index
    pending := upsert r.id r q.pending
    nextId := q.nextId + 1
    clock := q.clock + 1 }

/-- afterStore records a successful store.Append of r. -/
def Queue.afterStore (q : Queue) (r : Record) : Queue :=
  { q with store := upsert r.id r q.store }

/-- RequestOp mirrors Queue.Request. storeFails says whether the underlying
store.Append call fails at this invocation; mirroring the source, the
whitelist-hit branch ignores that error while the pending branch surfaces it
after the in-memory maps were already updated. -/
def Queue.RequestOp (q : Queue) (sessionID tool : String) (params : Params)
    (storeFails : Bool) : Except String (Record × Bool) × Queue :=
  let sid := trimSpace sessionID
  let tl := trimSpace tool
  if sid = "" then (.error "approval: session id required", q)
  else if tl = "" then (.error "approval: tool name required", q)
  else
    let normalized := params
    if (List.lookup (whitelistKey sid tl normalized) q.whitelist).isSome then
      let r := Queue.mkAutoRecord q sid tl normalized
      let q2 := Queue.afterIndexInsert q r
      (.ok (r, true), if storeFails then q2 else Queue.afterStore q2 r)
    else
      let r := Queue.mkPendingRecord q sid tl normalized
      let q2 := Queue.afterPendingInsert q r
      if storeFails then (.error storeErrMsg, q2)
      else (.ok (r, false), Queue.afterStore q2 r)

/-- decidedRecord moves a pending record to the given terminal decision. -/
def Queue.decidedRecord (r0 : Record) (d : Decision) (cmt : String) (now : Nat) :
    Record :=
  { r0 with decision := d, decided := some now, comment := cmt }

/-- afterApprove applies the in-memory effects of Queue.Approve before its
store append: index update, pending delete, whitelist refresh. -/
def Queue.afterApprove (q : Queue) (id : String) (r : Record) : Queue :=
  { q with
    index := upsert id r q.index
    pending := eraseKey id q.pending
    whitelist := whitelistAdd q.whitelist r.sessionID r.tool r.params (q.clock + 1)
    clock := q.clock + 1 }

/-- afterDecision applies the in-memory effects of Queue.Reject and
Queue.Timeout before their store append. -/
def Queue.afterDecision (q : Queue) (id : String) (r : Record) : Queue :=
  { q with
    index := upsert id r q.index
    pending := eraseKey id q.pending
    clock := q.clock + 1 }

/-- ApproveOp mirrors Queue.Approve: the pending record moves to approved,
the whitelist learns (session, tool, params), and only then is the record
persisted; a store failure surfaces with the in-memory updates kept. -/
def Queue.ApproveOp (q : Queue) (id comment : String) (storeFails : Bool) :
    Except String Record × Queue :=
  match List.lookup id q.pending with
  | none => (.error ("approval: " ++ id ++ " not pending"), q)
  | some r0 =>
    let cm := if trimSpace comment ≠ "" then comment else "approved"
    let r := Queue.decidedRecord r0 .approved cm (q.clock + 1)
    let q2 := Queue.afterApprove q id r
    if storeFails then (.error storeErrMsg, q2)
    else (.ok r, Queue.afterStore q2 r)

/-- RejectOp mirrors Queue.Reject. -/
def Queue.RejectOp (q : Queue) (id comment : String) (storeFails : Bool) :
    Except String Record × Queue :=
  match List.lookup id q.pending with
  | none => (.error ("approval: " ++ id ++ " not pending"), q)
  | some r0 =>
    let cm := if trimSpace comment ≠ "" then comment else "rejected"
    let r := Queue.decidedRecord r0 .rejected cm (q.clock + 1)
    let q2 := Queue.afterDecision q id r
    if storeFails then (.error storeErrMsg, q2)
    else (.ok r, Queue.afterStore q2 r)

/-- TimeoutOp mirrors Queue.Timeout. -/
def Queue.TimeoutOp (q : Queue) (id : String) (storeFails : Bool) :
    Except String Record × Queue :=
  match List.lookup id q.pending with
  | none => (.error ("approval: " ++ id ++ " not pending"), q)
  | some r0 =>
    let r := Queue.decidedRecord r0 .timeout "timeout" (q.clock + 1)
    let q2 := Queue.afterDecision q id r
    if storeFails then (.error storeErrMsg, q2)
    else (.ok r, Queue.afterStore q2 r)

/-- QOp enumerates the mutating queue operations, each carrying the oracle
bit for its store append. -/
inductive QOp where
  | request (sessionID tool : String) (params : Params) (storeFails : Bool)
  | approve (id comment : String) (storeFails : Bool)
  | reject (id comment : String) (storeFails : Bool)
  | expire (id : String) (storeFails : Bool)

/-- step runs one queue operation for its state effect. -/
def Queue.step (q : Queue) : QOp → Queue
  | .request s t p f => (Queue.RequestOp q s t p f).2
  | .approve id c f => (Queue.ApproveOp q id c f).2
  | .reject id c f => (Queue.RejectOp q id c f).2
  | .expire id f => (Queue.TimeoutOp q id f).2

/-- QueueInv collects the structural invariants NewQueue establishes and
every operation maintains: pending records carry the pending decision, the
pending map is a restriction of the index, and identifiers the generator has
not yet produced are absent from the index. -/
structure QueueInv (q : Queue) : Prop where
  pending_pending : ∀ id r, List.lookup id q.pending = some r → r.decision = .pending
  pending_in_index : ∀ id r, List.lookup id q.pending = some r →
    List.lookup id q.index = some r
  fresh : ∀ n, q.nextId ≤ n → List.lookup (newID n) q.index = none


theorem whitelistAdd_lookup_self (w : List (String × Entry)) (sid tl : String)
    (p : Params) (now : Nat) :
    (List.lookup (whitelistKey sid tl p) (whitelistAdd w sid tl p now)).isSome := by
  unfold whitelistAdd
  by_cases h : (List.lookup (whitelistKey sid tl p) w).isSome
  · simp [h]
  · simp only [h, Bool.false_eq_true, if_false]
    simp [lookup_cons_key]

theorem whitelistAdd_lookup_mono {w : List (String × Entry)} {key : String}
    (sid tl : String) (p : Params) (now : Nat)
    (h : (List.lookup key w).isSome) :
    (List.lookup key (whitelistAdd w sid tl p now)).isSome := by
  unfold whitelistAdd
  by_cases hh : (List.lookup (whitelistKey sid tl p) w).isSome
  · simpa [hh] using h
  · simp only [hh, Bool.false_eq_true, if_false]
    by_cases hk : key = whitelistKey sid tl p
    · simp [lookup_cons_key, hk]
    · simp [lookup_cons_key, hk, h]

theorem RequestOp_whitelist_unchanged (q : Queue) (s t : String) (p : Params)
    (f : Bool) : ((Queue.RequestOp q s t p f).2).whitelist = q.whitelist := by
  by_cases h1 : trimSpace s = "" <;>
    by_cases h2 : trimSpace t = "" <;>
      by_cases h3 : (List.lookup (whitelistKey (trimSpace s) (trimSpace t) p)
          q.whitelist).isSome = true <;>
        cases f <;>
          simp [Queue.RequestOp, h1, h2, h3, Queue.afterStore,
            Queue.afterIndexInsert, Queue.afterPendingInsert]

theorem step_whitelist_mono (q : Queue) (op : QOp) {key : String}
    (h : (List.lookup key q.whitelist).isSome) :
    (List.lookup key ((Queue.step q op).whitelist)).isSome := by
  cases op with
  | request s t p f =>
    simpa [Queue.step, RequestOp_whitelist_unchanged] using h
  | approve id c f =>
    simp only [Queue.step, Queue.ApproveOp]
    cases hl : List.lookup id q.pending with
    | none => simpa using h
    | some r0 =>
      simp only []
      split_ifs <;>
        simpa [Queue.afterStore, Queue.afterApprove] using
          whitelistAdd_lookup_mono _ _ _ _ h
  | reject id c f =>
    simp only [Queue.step, Queue.RejectOp]
    cases hl : List.lookup id q.pending with
    | none => simpa using h
    | some r0 =>
      simp only []
      split_ifs <;> simpa [Queue.afterStore, Queue.afterDecision] using h
  | expire id f =>
    simp only [Queue.step, Queue.TimeoutOp]
    cases hl : List.lookup id q.pending with
    | none => simpa using h
    | some r0 =>
      simp only []
      split_ifs <;> simpa [Queue.afterStore, Queue.afterDecision] using h

theorem foldl_step_whitelist_mono (ops : List QOp) (q : Queue) {key : String}
    (h : (List.lookup key q.whitelist).isSome) :
    (List.lookup key ((List.foldl Queue.step q ops).whitelist)).isSome := by
  induction ops generalizing q with
  | nil => simpa using h
  | cons op rest ih => exact ih _ (step_whitelist_mono q op h)

theorem RequestOp_miss_ok (q : Queue) (s t : String) (p : Params)
    (hs : ¬ trimSpace s = "") (ht : ¬ trimSpace t = "")
    (hmiss : List.lookup (whitelistKey (trimSpace s) (trimSpace t) p) q.whitelist = none) :
    Queue.RequestOp q s t p false =
      (.ok (Queue.mkPendingRecord q (trimSpace s) (trimSpace t) p, false),
        Queue.afterStore
          (Queue.afterPendingInsert q (Queue.mkPendingRecord q (trimSpace s) (trimSpace t) p))
          (Queue.mkPendingRecord q (trimSpace s) (trimSpace t) p)) := by
  have hm : (List.lookup (whitelistKey (trimSpace s) (trimSpace t) p)
      q.whitelist).isSome = false := by simp [hmiss]
  simp [Queue.RequestOp, hs, ht, hm]

theorem RequestOp_hit_ok (q : Queue) (s t : String) (p : Params) (f : Bool)
    (hs : ¬ trimSpace s = "") (ht : ¬ trimSpace t = "")
    (hhit : (List.lookup (whitelistKey (trimSpace s) (trimSpace t) p)
      q.whitelist).isSome) :
    Queue.RequestOp q s t p f =
      (.ok (Queue.mkAutoRecord q (trimSpace s) (trimSpace t) p, true),
        if f then Queue.afterIndexInsert q (Queue.mkAutoRecord q (trimSpace s) (trimSpace t) p)
        else Queue.afterStore
          (Queue.afterIndexInsert q (Queue.mkAutoRecord q (trimSpace s) (trimSpace t) p))
          (Queue.mkAutoRecord q (trimSpace s) (trimSpace t) p)) := by
  simp [Queue.RequestOp, hs, ht, hhit]

theorem ApproveOp_found_ok (q : Queue) (id cmt : String) (r0 : Record)
    (hl : List.lookup id q.pending = some r0) :
    Queue.ApproveOp q id cmt false =
      (.ok (Queue.decidedRecord r0 .approved
          (if trimSpace cmt ≠ "" then cmt else "approved") (q.clock + 1)),
        Queue.afterStore
          (Queue.afterApprove q id
            (Queue.decidedRecord r0 .approved
              (if trimSpace cmt ≠ "" then cmt else "approved") (q.clock + 1)))
          (Queue.decidedRecord r0 .approved
            (if trimSpace cmt ≠ "" then cmt else "approved") (q.clock + 1))) := by
  simp [Queue.ApproveOp, hl]

/-- C2: after a pending Request(s, t, p) and a successful Approve of that
record, every later Request for the same session and tool whose params have
the same contents (equal normalizations) is answered from the whitelist: an
approved, auto=true record and an auto-approved flag of true, with no pending
record created - whatever queue operations run in between, and even if the
store append of the auto record fails (the source ignores that error). -/
theorem c2_second_request_auto_approved
    (q0 : Queue) (s t : String) (p p2 : Params) (cmt : String)
    (hs : ¬ trimSpace s = "") (ht : ¬ trimSpace t = "")
    (hmiss : List.lookup (whitelistKey (trimSpace s) (trimSpace t) p) q0.whitelist = none)
    (hp : normalizeParams p2 = normalizeParams p) :
    ∃ r1 q1 r2 q2,
      Queue.RequestOp q0 s t p false = (.ok (r1, false), q1) ∧
      r1.decision = .pending ∧
      Queue.ApproveOp q1 r1.id cmt false = (.ok r2, q2) ∧
      r2.decision = .approved ∧
      ∀ ops f2, ∃ r3 q4,
        Queue.RequestOp (List.foldl Queue.step q2 ops) s t p2 f2 = (.ok (r3, true), q4) ∧
        r3.decision = .approved ∧ r3.auto = true ∧
        q4.pending = (List.foldl Queue.step q2 ops).pending := by
  have e1 := RequestOp_miss_ok q0 s t p hs ht hmiss
  set r1 := Queue.mkPendingRecord q0 (trimSpace s) (trimSpace t) p with hr1
  set q1 := Queue.afterStore (Queue.afterPendingInsert q0 r1) r1 with hq1
  have hpend1 : List.lookup r1.id q1.pending = some r1 := by
    simp [hq1, Queue.afterStore, Queue.afterPendingInsert, lookup_upsert_self]
  have e2 := ApproveOp_found_ok q1 r1.id cmt r1 hpend1
  set cm := if trimSpace cmt ≠ "" then cmt else "approved" with hcm
  set r2 := Queue.decidedRecord r1 .approved cm (q1.clock + 1) with hr2
  set q2 := Queue.afterStore (Queue.afterApprove q1 r1.id r2) r2 with hq2
  refine ⟨r1, q1, r2, q2, e1, rfl, e2, rfl, ?_⟩
  intro ops f2
  have hkey : (List.lookup (whitelistKey (trimSpace s) (trimSpace t) p)
      q2.whitelist).isSome := by
    have : q2.whitelist =
        whitelistAdd q1.whitelist (trimSpace s) (trimSpace t) p (q1.clock + 1) := by
      simp [hq2, Queue.afterStore, Queue.afterApprove, hr2, Queue.decidedRecord,
        hr1, Queue.mkPendingRecord]
    rw [this]
    exact whitelistAdd_lookup_self _ _ _ _ _
  have hkey3 := foldl_step_whitelist_mono ops q2 hkey
  have hkeyeq : whitelistKey (trimSpace s) (trimSpace t) p2 =
      whitelistKey (trimSpace s) (trimSpace t) p := by
    unfold whitelistKey
    rw [hashParams_congr hp]
  have hhit : (List.lookup (whitelistKey (trimSpace s) (trimSpace t) p2)
      ((List.foldl Queue.step q2 ops).whitelist)).isSome := by
    rw [hkeyeq]; exact hkey3
  have e3 := RequestOp_hit_ok (List.foldl Queue.step q2 ops) s t p2 f2 hs ht hhit
  refine ⟨_, _, e3, rfl, rfl, ?_⟩
  cases f2 <;>
    simp [Queue.afterStore, Queue.afterIndexInsert]


/-- Witness for C2 at a concrete queue: empty initial state, session "sess",
tool "bash", params listed in two different orders. -/
theorem c2_second_request_auto_approved_witness :
    (¬ trimSpace "sess" = "") ∧ (¬ trimSpace "bash" = "") ∧
    (∃ r1 q1 r2 q2,
      Queue.RequestOp ⟨[], [], [], [], 0, 0⟩ "sess" "bash"
          [("k1", Value.vnum 1), ("k2", Value.vnum 2)] false = (.ok (r1, false), q1) ∧
      r1.decision = .pending ∧
      Queue.ApproveOp q1 r1.id "ok" false = (.ok r2, q2) ∧
      r2.decision = .approved ∧
      ∀ ops f2, ∃ r3 q4,
        Queue.RequestOp (List.foldl Queue.step q2 ops) "sess" "bash"
            [("k2", Value.vnum 2), ("k1", Value.vnum 1)] f2 = (.ok (r3, true), q4) ∧
        r3.decision = .approved ∧ r3.auto = true ∧
        q4.pending = (List.foldl Queue.step q2 ops).pending) := by
  have hp : normalizeParams [("k2", Value.vnum 2), ("k1", Value.vnum 1)] =
      normalizeParams [("k1", Value.vnum 1), ("k2", Value.vnum 2)] := by
    have h12 : (['k', '1'] : List Char) ≤ ['k', '2'] := by decide
    have h21 : ¬ ((['k', '2'] : List Char) ≤ ['k', '1']) := by decide
    simp [normalizeParams, normalizePairs, normalizeValue, sortPairs, insertPair,
      h12, h21]
  exact ⟨by decide, by decide,
    c2_second_request_auto_approved ⟨[], [], [], [], 0, 0⟩ "sess" "bash"
      [("k1", Value.vnum 1), ("k2", Value.vnum 2)]
      [("k2", Value.vnum 2), ("k1", Value.vnum 1)] "ok"
      (by decide) (by decide) rfl hp⟩


/-- terminalAt says the index holds a record for id whose decision is
terminal (not pending). -/
def terminalAt (q : Queue) (id : String) : Prop :=
  ∃ r, List.lookup id q.index = some r ∧ r.decision ≠ .pending

theorem inv_afterStore {q : Queue} (r : Record) (hInv : QueueInv q) :
    QueueInv (Queue.afterStore q r) :=
  ⟨hInv.pending_pending, hInv.pending_in_index, hInv.fresh⟩

theorem terminal_afterStore {q : Queue} (r : Record) {id : String}
    (h : terminalAt q id) : terminalAt (Queue.afterStore q r) id := h

theorem inv_afterIndexInsert {q : Queue} {r : Record} (hInv : QueueInv q)
    (hid : r.id = newID q.nextId) : QueueInv (Queue.afterIndexInsert q r) := by
  refine ⟨hInv.pending_pending, ?_, ?_⟩
  · intro id rp hp
    have hold := hInv.pending_in_index id rp hp
    have hne : id ≠ newID q.nextId := by
      intro he
      rw [he, hInv.fresh q.nextId le_rfl] at hold
      cases hold
    show List.lookup id (upsert r.id r q.index) = some rp
    rw [hid, lookup_upsert_other hne]
    exact hold
  · intro n hn
    have hn' : q.nextId + 1 ≤ n := hn
    have hne : newID n ≠ newID q.nextId := by
      intro he
      have := newID_inj he
      omega
    show List.lookup (newID n) (upsert r.id r q.index) = none
    rw [hid, lookup_upsert_other hne]
    exact hInv.fresh n (by omega)

theorem terminal_afterIndexInsert {q : Queue} {r : Record} (hInv : QueueInv q)
    (hid : r.id = newID q.nextId) {id : String} (h : terminalAt q id) :
    terminalAt (Queue.afterIndexInsert q r) id := by
  obtain ⟨rt, hrt, hdec⟩ := h
  have hne : id ≠ newID q.nextId := by
    intro he
    rw [he, hInv.fresh q.nextId le_rfl] at hrt
    cases hrt
  refine ⟨rt, ?_, hdec⟩
  show List.lookup id (upsert r.id r q.index) = some rt
  rw [hid, lookup_upsert_other hne]
  exact hrt

theorem inv_afterPendingInsert {q : Queue} {r : Record} (hInv : QueueInv q)
    (hid : r.id = newID q.nextId) (hdec : r.decision = .pending) :
    QueueInv (Queue.afterPendingInsert q r) := by
  refine ⟨?_, ?_, ?_⟩
  · intro i rp hp
    rw [show (Queue.afterPendingInsert q r).pending = upsert r.id r q.pending
      from rfl] at hp
    by_cases he : i = r.id
    · rw [he, lookup_upsert_self] at hp
      cases hp
      exact hdec
    · rw [lookup_upsert_other he] at hp
      exact hInv.pending_pending i rp hp
  · intro i rp hp
    rw [show (Queue.afterPendingInsert q r).pending = upsert r.id r q.pending
      from rfl] at hp
    show List.lookup i (upsert r.id r q.index) = some rp
    by_cases he : i = r.id
    · rw [he] at hp ⊢
      rw [lookup_upsert_self] at hp
      cases hp
      exact lookup_upsert_self _ _ _
    · rw [lookup_upsert_other he] at hp
      rw [lookup_upsert_other he]
      exact hInv.pending_in_index i rp hp
  · intro n hn
    have hn' : q.nextId + 1 ≤ n := hn
    have hne : newID n ≠ newID q.nextId := by
      intro he
      have := newID_inj he
      omega
    show List.lookup (newID n) (upsert r.id r q.index) = none
    rw [hid, lookup_upsert_other hne]
    exact hInv.fresh n (by omega)

theorem terminal_afterPendingInsert {q : Queue} {r : Record} (hInv : QueueInv q)
    (hid : r.id = newID q.nextId) {id : String} (h : terminalAt q id) :
    terminalAt (Queue.afterPendingInsert q r) id := by
  obtain ⟨rt, hrt, hdec⟩ := h
  have hne : id ≠ newID q.nextId := by
    intro he
    rw [he, hInv.fresh q.nextId le_rfl] at hrt
    cases hrt
  refine ⟨rt, ?_, hdec⟩
  show List.lookup id (upsert r.id r q.index) = some rt
  rw [hid, lookup_upsert_other hne]
  exact hrt

theorem inv_decision_fields {q S : Queue} (hInv : QueueInv q) {id0 : String}
    {r r0 : Record} (hpend : List.lookup id0 q.pending = some r0)
    (hind : S.index = upsert id0 r q.index)
    (hpen : S.pending = eraseKey id0 q.pending)
    (hnext : S.nextId = q.nextId) : QueueInv S := by
  refine ⟨?_, ?_, ?_⟩
  · intro id rp hp
    rw [hpen] at hp
    by_cases he : id = id0
    · subst he
      rw [lookup_eraseKey_self] at hp
      cases hp
    · rw [lookup_eraseKey_other he] at hp
      exact hInv.pending_pending id rp hp
  · intro id rp hp
    rw [hpen] at hp
    by_cases he : id = id0
    · subst he
      rw [lookup_eraseKey_self] at hp
      cases hp
    · rw [lookup_eraseKey_other he] at hp
      rw [hind, lookup_upsert_other he]
      exact hInv.pending_in_index id rp hp
  · intro n hn
    rw [hnext] at hn
    have hidx := hInv.pending_in_index id0 r0 hpend
    have hne : newID n ≠ id0 := by
      intro he
      rw [← he, hInv.fresh n hn] at hidx
      cases hidx
    rw [hind, lookup_upsert_other hne]
    exact hInv.fresh n hn

theorem terminal_decision_fields {q S : Queue} {id0 : String} {r : Record}
    (hdec : r.decision ≠ .pending)
    (hind : S.index = upsert id0 r q.index) {id : String}
    (h : terminalAt q id) : terminalAt S id := by
  obtain ⟨rt, hrt, hrtdec⟩ := h
  by_cases he : id = id0
  · subst he
    exact ⟨r, by rw [hind, lookup_upsert_self], hdec⟩
  · exact ⟨rt, by rw [hind, lookup_upsert_other he]; exact hrt, hrtdec⟩

theorem step_preserves_inv_terminal (q : Queue) (op : QOp) (hInv : QueueInv q) :
    QueueInv (Queue.step q op) ∧
      (∀ id, terminalAt q id → terminalAt (Queue.step q op) id) := by
  cases op with
  | request s t p f =>
    simp only [Queue.step]
    by_cases h1 : trimSpace s = ""
    · have hq : (Queue.RequestOp q s t p f).2 = q := by simp [Queue.RequestOp, h1]
      rw [hq]
      exact ⟨hInv, fun i h => h⟩
    · by_cases h2 : trimSpace t = ""
      · have hq : (Queue.RequestOp q s t p f).2 = q := by
          simp [Queue.RequestOp, h1, h2]
        rw [hq]
        exact ⟨hInv, fun i h => h⟩
      · by_cases h3 : (List.lookup (whitelistKey (trimSpace s) (trimSpace t) p)
            q.whitelist).isSome = true
        · have hstate : (Queue.RequestOp q s t p f).2 =
              (if f then Queue.afterIndexInsert q
                  (Queue.mkAutoRecord q (trimSpace s) (trimSpace t) p)
                else Queue.afterStore
                  (Queue.afterIndexInsert q
                    (Queue.mkAutoRecord q (trimSpace s) (trimSpace t) p))
                  (Queue.mkAutoRecord q (trimSpace s) (trimSpace t) p)) := by
            simp [Queue.RequestOp, h1, h2, h3]
          rw [hstate]
          have hbase := inv_afterIndexInsert hInv
            (show (Queue.mkAutoRecord q (trimSpace s) (trimSpace t) p).id =
              newID q.nextId from rfl)
          cases f with
          | true =>
            simp only [if_pos rfl]
            exact ⟨hbase, fun id h => terminal_afterIndexInsert hInv rfl h⟩
          | false =>
            simp only [Bool.false_eq_true, if_false]
            exact ⟨inv_afterStore _ hbase,
              fun id h => terminal_afterStore _ (terminal_afterIndexInsert hInv rfl h)⟩
        · have hstate : (Queue.RequestOp q s t p f).2 =
              (if f then Queue.afterPendingInsert q
                  (Queue.mkPendingRecord q (trimSpace s) (trimSpace t) p)
                else Queue.afterStore
                  (Queue.afterPendingInsert q
                    (Queue.mkPendingRecord q (trimSpace s) (trimSpace t) p))
                  (Queue.mkPendingRecord q (trimSpace s) (trimSpace t) p)) := by
            by_cases hf : f = true
            · simp [Queue.RequestOp, h1, h2, h3, hf]
            · simp only [Bool.not_eq_true] at hf
              simp [Queue.RequestOp, h1, h2, h3, hf]
          rw [hstate]
          have hbase := inv_afterPendingInsert hInv
            (show (Queue.mkPendingRecord q (trimSpace s) (trimSpace t) p).id =
              newID q.nextId from rfl) rfl
          cases f with
          | true =>
            simp only [if_pos rfl]
            exact ⟨hbase, fun id h => terminal_afterPendingInsert hInv rfl h⟩
          | false =>
            simp only [Bool.false_eq_true, if_false]
            exact ⟨inv_afterStore _ hbase,
              fun id h => terminal_afterStore _ (terminal_afterPendingInsert hInv rfl h)⟩
  | approve id0 c f =>
    simp only [Queue.step]
    cases hl : List.lookup id0 q.pending with
    | none =>
      have hq : (Queue.ApproveOp q id0 c f).2 = q := by simp [Queue.ApproveOp, hl]
      rw [hq]
      exact ⟨hInv, fun i h => h⟩
    | some r0 =>
      have hstate : (Queue.ApproveOp q id0 c f).2 =
          (if f then Queue.afterApprove q id0
              (Queue.decidedRecord r0 .approved
                (if trimSpace c ≠ "" then c else "approved") (q.clock + 1))
            else Queue.afterStore
              (Queue.afterApprove q id0
                (Queue.decidedRecord r0 .approved
                  (if trimSpace c ≠ "" then c else "approved") (q.clock + 1)))
              (Queue.decidedRecord r0 .approved
                (if trimSpace c ≠ "" then c else "approved") (q.clock + 1))) := by
        by_cases hf : f = true
        · simp [Queue.ApproveOp, hl, hf]
        · simp only [Bool.not_eq_true] at hf
          simp [Queue.ApproveOp, hl, hf]
      rw [hstate]
      set rdec := Queue.decidedRecord r0 .approved
        (if trimSpace c ≠ "" then c else "approved") (q.clock + 1) with hrdec
      have hbase := inv_decision_fields hInv hl
        (show (Queue.afterApprove q id0 rdec).index = upsert id0 rdec q.index from rfl)
        (show (Queue.afterApprove q id0 rdec).pending = eraseKey id0 q.pending from rfl)
        (show (Queue.afterApprove q id0 rdec).nextId = q.nextId from rfl)
      have hterm : ∀ i, terminalAt q i → terminalAt (Queue.afterApprove q id0 rdec) i :=
        fun i h => terminal_decision_fields
          (show rdec.decision ≠ .pending from by simp [hrdec, Queue.decidedRecord])
          (show (Queue.afterApprove q id0 rdec).index = upsert id0 rdec q.index from rfl) h
      cases f with
      | true =>
        simp only [if_pos rfl]
        exact ⟨hbase, hterm⟩
      | false =>
        simp only [Bool.false_eq_true, if_false]
        exact ⟨inv_afterStore _ hbase, fun i h => terminal_afterStore _ (hterm i h)⟩
  | reject id0 c f =>
    simp only [Queue.step]
    cases hl : List.lookup id0 q.pending with
    | none =>
      have hq : (Queue.RejectOp q id0 c f).2 = q := by simp [Queue.RejectOp, hl]
      rw [hq]
      exact ⟨hInv, fun i h => h⟩
    | some r0 =>
      have hstate : (Queue.RejectOp q id0 c f).2 =
          (if f then Queue.afterDecision q id0
              (Queue.decidedRecord r0 .rejected
                (if trimSpace c ≠ "" then c else "rejected") (q.clock + 1))
            else Queue.afterStore
              (Queue.afterDecision q id0
                (Queue.decidedRecord r0 .rejected
                  (if trimSpace c ≠ "" then c else "rejected") (q.clock + 1)))
              (Queue.decidedRecord r0 .rejected
                (if trimSpace c ≠ "" then c else "rejected") (q.clock + 1))) := by
        by_cases hf : f = true
        · simp [Queue.RejectOp, hl, hf]
        · simp only [Bool.not_eq_true] at hf
          simp [Queue.RejectOp, hl, hf]
      rw [hstate]
      set rdec := Queue.decidedRecord r0 .rejected
        (if trimSpace c ≠ "" then c else "rejected") (q.clock + 1) with hrdec
      have hbase := inv_decision_fields hInv hl
        (show (Queue.afterDecision q id0 rdec).index = upsert id0 rdec q.index from rfl)
        (show (Queue.afterDecision q id0 rdec).pending = eraseKey id0 q.pending from rfl)
        (show (Queue.afterDecision q id0 rdec).nextId = q.nextId from rfl)
      have hterm : ∀ i, terminalAt q i → terminalAt (Queue.afterDecision q id0 rdec) i :=
        fun i h => terminal_decision_fields
          (show rdec.decision ≠ .pending from by simp [hrdec, Queue.decidedRecord])
          (show (Queue.afterDecision q id0 rdec).index = upsert id0 rdec q.index from rfl) h
      cases f with
      | true =>
        simp only [if_pos rfl]
        exact ⟨hbase, hterm⟩
      | false =>
        simp only [Bool.false_eq_true, if_false]
        exact ⟨inv_afterStore _ hbase, fun i h => terminal_afterStore _ (hterm i h)⟩
  | expire id0 f =>
    simp only [Queue.step]
    cases hl : List.lookup id0 q.pending with
    | none =>
      have hq : (Queue.TimeoutOp q id0 f).2 = q := by simp [Queue.TimeoutOp, hl]
      rw [hq]
      exact ⟨hInv, fun i h => h⟩
    | some r0 =>
      have hstate : (Queue.TimeoutOp q id0 f).2 =
          (if f then Queue.afterDecision q id0
              (Queue.decidedRecord r0 .timeout "timeout" (q.clock + 1))
            else Queue.afterStore
              (Queue.afterDecision q id0
                (Queue.decidedRecord r0 .timeout "timeout" (q.clock + 1)))
              (Queue.decidedRecord r0 .timeout "timeout" (q.clock + 1))) := by
        by_cases hf : f = true
        · simp [Queue.TimeoutOp, hl, hf]
        · simp only [Bool.not_eq_true] at hf
          simp [Queue.TimeoutOp, hl, hf]
      rw [hstate]
      set rdec := Queue.decidedRecord r0 .timeout "timeout" (q.clock + 1) with hrdec
      have hbase := inv_decision_fields hInv hl
        (show (Queue.afterDecision q id0 rdec).index = upsert id0 rdec q.index from rfl)
        (show (Queue.afterDecision q id0 rdec).pending = eraseKey id0 q.pending from rfl)
        (show (Queue.afterDecision q id0 rdec).nextId = q.nextId from rfl)
      have hterm : ∀ i, terminalAt q i → terminalAt (Queue.afterDecision q id0 rdec) i :=
        fun i h => terminal_decision_fields
          (show rdec.decision ≠ .pending from by simp [hrdec, Queue.decidedRecord])
          (show (Queue.afterDecision q id0 rdec).index = upsert id0 rdec q.index from rfl) h
      cases f with
      | true =>
        simp only [if_pos rfl]
        exact ⟨hbase, hterm⟩
      | false =>
        simp only [Bool.false_eq_true, if_false]
        exact ⟨inv_afterStore _ hbase, fun i h => terminal_afterStore _ (hterm i h)⟩

theorem foldl_step_preserves_inv_terminal (ops : List QOp) (q : Queue)
    (hInv : QueueInv q) :
    QueueInv (List.foldl Queue.step q ops) ∧
      (∀ id, terminalAt q id → terminalAt (List.foldl Queue.step q ops) id) := by
  induction ops generalizing q with
  | nil => exact ⟨hInv, fun id h => h⟩
  | cons op rest ih =>
    have hstep := step_preserves_inv_terminal q op hInv
    have hrest := ih (Queue.step q op) hstep.1
    exact ⟨hrest.1, fun id h => hrest.2 id (hstep.2 id h)⟩


/-- C3: an approval record's decision changes at most once, from pending to
exactly one terminal state. Approve, Reject and Timeout each fail with the
"not pending" error on any id that is not currently pending; under the queue
invariants, an id whose indexed decision is terminal is never in the pending
map; and no sequence of queue operations ever brings a terminal id back to a
pending decision. -/
theorem c3_decision_transitions_once :
    (∀ (q : Queue) (id cmt : String) (f : Bool),
        List.lookup id q.pending = none →
          (Queue.ApproveOp q id cmt f).1 =
            .error ("approval: " ++ id ++ " not pending") ∧
          (Queue.RejectOp q id cmt f).1 =
            .error ("approval: " ++ id ++ " not pending") ∧
          (Queue.TimeoutOp q id f).1 =
            .error ("approval: " ++ id ++ " not pending")) ∧
    (∀ (q : Queue) (id : String), QueueInv q → terminalAt q id →
        List.lookup id q.pending = none) ∧
    (∀ (q : Queue) (ops : List QOp) (id : String), QueueInv q → terminalAt q id →
        terminalAt (List.foldl Queue.step q ops) id) := by
  refine ⟨?_, ?_, ?_⟩
  · intro q id cmt f hnone
    exact ⟨by simp [Queue.ApproveOp, hnone], by simp [Queue.RejectOp, hnone],
      by simp [Queue.TimeoutOp, hnone]⟩
  · intro q id hInv hterm
    obtain ⟨r, hr, hd⟩ := hterm
    cases hp : List.lookup id q.pending with
    | none => rfl
    | some rp =>
      have h1 := hInv.pending_pending id rp hp
      have h2 := hInv.pending_in_index id rp hp
      rw [hr] at h2
      have h3 : r = rp := Option.some.inj h2
      exact absurd (by rw [h3]; exact h1) hd
  · intro q ops id hInv hterm
    exact (foldl_step_preserves_inv_terminal ops q hInv).2 id hterm

/-- recAW is a concrete terminal (approved) record for the C3 witness. -/
def recAW : Record :=
  { id := newID 0
    sessionID := "s"
    tool := "b"
    params := []
    decision := .approved
    requested := 1
    decided := some 1
    comment := "ok"
    auto := false }

/-- qW is a concrete queue holding one terminal record for the C3 witness. -/
def qW : Queue :=
  { index := [(newID 0, recAW)]
    pending := []
    whitelist := []
    store := []
    nextId := 1
    clock := 3 }

/-- Witness for C3 at concrete states: the error fires on an unknown id, and
a terminal record stays terminal across a further request. -/
theorem c3_decision_transitions_once_witness :
    (List.lookup "z" (⟨[], [], [], [], 0, 0⟩ : Queue).pending = none ∧
      (Queue.ApproveOp ⟨[], [], [], [], 0, 0⟩ "z" "c" false).1 =
        .error ("approval: " ++ "z" ++ " not pending")) ∧
    QueueInv qW ∧ terminalAt qW (newID 0) ∧
    List.lookup (newID 0) qW.pending = none ∧
    terminalAt (List.foldl Queue.step qW [QOp.request "s" "b" [] false]) (newID 0) := by
  have hInvW : QueueInv qW := by
    refine ⟨?_, ?_, ?_⟩
    · intro i r h
      cases h
    · intro i r h
      cases h
    · intro n hn
      have hn1 : 1 ≤ n := hn
      have hne : newID n ≠ newID 0 := by
        intro he
        have := newID_inj he
        omega
      show List.lookup (newID n) [(newID 0, recAW)] = none
      rw [lookup_cons_key, if_neg hne]
      rfl
  have htermW : terminalAt qW (newID 0) := by
    refine ⟨recAW, ?_, by decide⟩
    show List.lookup (newID 0) [(newID 0, recAW)] = some recAW
    rw [lookup_cons_key, if_pos rfl]
  exact ⟨⟨rfl, (c3_decision_transitions_once.1 ⟨[], [], [], [], 0, 0⟩ "z" "c" false rfl).1⟩,
    hInvW, htermW,
    c3_decision_transitions_once.2.1 qW (newID 0) hInvW htermW,
    c3_decision_transitions_once.2.2 qW [QOp.request "s" "b" [] false] (newID 0)
      hInvW htermW⟩


/-- ToolCall is the spec data model for a tool invocation request: id, name,
arguments. Modelled from the spec: the message source file of pkg/session is
not under src/; file.go pins only that ToolCalls is a list that Append deep
copies. -/
structure ToolCall where
  id : String
  name : String
  args : Params

/-- Message is the session transcript message. Modelled from the spec data
model (role, content, ordered tool_calls, timestamp, id); file.go pins the
Role, ID, Timestamp and ToolCalls fields, the empty-id and zero-timestamp
server assignment, and the whitespace-role validation. A timestamp of 0 is
the Go zero time. -/
structure Message where
  role : String
  content : String
  toolCalls : List ToolCall
  timestamp : Nat
  id : String

/-- cloneMessage mirrors the deep copy of a message; on pure values it is the
identity. -/
def cloneMessage (m : Message) : Message := m

/-- cloneMessages mirrors the deep copy of a transcript. -/
def cloneMessages (msgs : List Message) : List Message := msgs

/-- SessionFilter is the session List filter. Modelled from the spec and the
field uses in FileSession.List: role, offset, limit and optional time
bounds. -/
structure SessionFilter where
  role : String
  offset : Int
  limit : Int
  startTime : Option Nat
  endTime : Option Nat

/-- emptyFilter is the zero-value filter: no role, no offset, no limit, no
time bounds. -/
def emptyFilter : SessionFilter :=
  { role := "", offset := 0, limit := 0, startTime := none, endTime := none }

/-- Channel enumerates the three session WAL streams. -/
inductive Channel where
  | progress
  | control
  | monitor
deriving DecidableEq

/-- CheckpointData mirrors session.Checkpoint: name, timestamp, serialized
snapshot (held as the message list it decodes to) and channel cursors. -/
structure CheckpointData where
  name : String
  timestamp : Nat
  state : List Message
  cursors : List (Channel × Nat)

/-- CheckpointState mirrors the in-memory checkpointState of file.go. -/
structure CheckpointState where
  position : Nat
  payload : CheckpointData
  snapshot : List Message

/-- WalRecord mirrors the walRecord union written to the session WAL. -/
inductive WalRecord where
  | message (m : Message)
  | checkpoint (c : CheckpointData)
  | resume (name : String)
  | approvalRec (r : Record)

/-- walRecordKind gives the Kind tag of a record. -/
def walRecordKind : WalRecord → String
  | .message _ => "message"
  | .checkpoint _ => "checkpoint"
  | .resume _ => "resume"
  | .approvalRec _ => "approval"

/-- channelForKind mirrors channelForKind of file.go. -/
def channelForKind (kind : String) : Channel :=
  if kind = "message" then .progress
  else if kind = "checkpoint" then .control
  else if kind = "resume" then .control
  else if kind = "approval" then .monitor
  else .progress

/-- setCursor models cursor-map assignment. -/
def setCursor (ch : Channel) (pos : Nat) : List (Channel × Nat) → List (Channel × Nat)
  | [] => [(ch, pos)]
  | (c, p) :: rest => if ch = c then (ch, pos) :: rest else (c, p) :: setCursor ch pos rest

/-- SessionErr enumerates the session error values of session.go; wrapped
errors are represented by the constructor of the sentinel they wrap. A WAL
append or sync failure surfaces as walAppendFailed. -/
inductive SessionErr where
  | invalidMessage
  | sessionClosed
  | invalidCheckpointName
  | checkpointNotFound (name : String)
  | checkpointTooLarge (size : Nat)
  | walAppendFailed
deriving DecidableEq

/-- MaxCheckpointBytes bounds serialized checkpoint payloads to 1 MiB. -/
def MaxCheckpointBytes : Nat := 1048576

/-- messageEncodedSize abstracts the JSON byte footprint of one message.
Modelled from the spec: json.Marshal is external to the repo; only the
comparison of the total against MaxCheckpointBytes reaches the embedded
control flow. -/
def messageEncodedSize (m : Message) : Nat :=
  64 + m.role.length + m.content.length + m.id.length + 24 * m.toolCalls.length

/-- encodedSizeMessages abstracts the byte length of the JSON array
encodeCheckpointMessages produces. -/
def encodedSizeMessages (msgs : List Message) : Nat :=
  2 + (msgs.map messageEncodedSize).sum

/-- isCheckpointChar accepts the lowercase alphanumeric + dash alphabet of
checkpoint names. -/
def isCheckpointChar (c : Char) : Bool :=
  ('a' ≤ c ∧ c ≤ 'z') ∨ ('0' ≤ c ∧ c ≤ '9') ∨ c = '-'

/-- normalizeCheckpointName validates a checkpoint name. Modelled from the
spec: names are lowercase alphanumeric + dash, surrounding whitespace is
trimmed, and empty or malformed names are ErrInvalidCheckpointName (the
defining file of pkg/session is not under src/). -/
def normalizeCheckpointName (name : String) : Except SessionErr String :=
  let trimmed := trimSpace name
  if trimmed = "" then .error .invalidCheckpointName
  else if trimmed.data.all isCheckpointChar then .ok trimmed
  else .error .invalidCheckpointName

/-- FileSession mirrors the mutable state of session.FileSession; wal is the
backing log with explicit positions, clock the ambient time.Now counter. -/
structure FileSession where
  id : String
  messages : List Message
  checkpoints : List (String × CheckpointState)
  approvals : List (String × Record)
  seq : Nat
  cursors : List (Channel × Nat)
  next : Nat
  closed : Bool
  wal : List (Nat × WalRecord)
  clock : Nat

/-- mk0 is the state NewFileSession builds for a fresh directory: an empty
replay. -/
def FileSession.mk0 (id : String) : FileSession :=
  { id := id
    messages := []
    checkpoints := []
    approvals := []
    seq := 0
    cursors := []
    next := 0
    closed := false
    wal := []
    clock := 0 }

/-- appendRecord mirrors FileSession.appendRecord: append to the WAL, sync,
then advance the cursor of the record's channel and the next position. The
walFails oracle covers a failing Append or Sync, after which cursors and next
are left untouched and the error surfaces. -/
def FileSession.appendRecord (s : FileSession) (r : WalRecord) (walFails : Bool) :
    Except SessionErr Nat × FileSession :=
  if walFails then (.error .walAppendFailed, s)
  else
    let pos := s.next
    let s2 : FileSession :=
      { s with
        wal := s.wal ++ [(pos, r)]
        cursors := setCursor (channelForKind (walRecordKind r)) pos s.cursors
        next := pos + 1 }
    (.ok pos, s2)

/-- pad6 mirrors the %06d formatting of the server-assigned message id. -/
def pad6 (n : Nat) : String :=
  let s := toString n
  String.mk (List.replicate (6 - s.length) '0') ++ s

/-- AppendMsg mirrors FileSession.Append: validate the role, check closed,
bump seq, assign id / timestamp when unset, persist, then mirror into the
in-memory transcript. On a WAL failure the transcript is left unchanged (the
already-bumped sequence counter stays, as in the source). -/
def FileSession.AppendMsg (s : FileSession) (msg : Message) (walFails : Bool) :
    Except SessionErr Unit × FileSession :=
  if trimSpace msg.role = "" then (.error .invalidMessage, s)
  else if s.closed then (.error .sessionClosed, s)
  else
    let seq2 := s.seq + 1
    let withId := if msg.id = "" then { msg with id := s.id ++ "-" ++ pad6 seq2 } else msg
    let clone := if withId.timestamp = 0 then { withId with timestamp := s.clock + 1 }
      else withId
    let s1 : FileSession := { s with seq := seq2, clock := s.clock + 1 }
    match FileSession.appendRecord s1 (.message clone) walFails with
    | (.error e, s2) => (.error e, s2)
    | (.ok _, s2) => (.ok (), { s2 with messages := s2.messages ++ [clone] })

/-- skipMsg decides whether FileSession.List skips a message for the role or
time-range filters. -/
def skipMsg (m : Message) (role : String) (st en : Option Nat) : Bool :=
  (role ≠ "" && m.role ≠ role) ||
    (match st with | some t => m.timestamp < t | none => false) ||
    (match en with | some t => t < m.timestamp | none => false)

/-- collectMessages mirrors the List loop: skip filtered messages, then skip
offset many, then collect until a positive limit is reached. cnt counts the
collected messages so far. -/
def collectMessages : List Message → String → Option Nat → Option Nat → Int → Int →
    Nat → List Message
  | [], _, _, _, _, _, _ => []
  | m :: rest, role, st, en, offset, limit, cnt =>
    if skipMsg m role st en then collectMessages rest role st en offset limit cnt
    else if offset > 0 then collectMessages rest role st en (offset - 1) limit cnt
    else if limit > 0 ∧ ((cnt + 1 : Nat) : Int) ≥ limit then [m]
    else m :: collectMessages rest role st en offset limit (cnt + 1)

/-- ListOp mirrors FileSession.List. -/
def FileSession.ListOp (s : FileSession) (filter : SessionFilter) :
    Except SessionErr (List Message) :=
  if s.closed then .error .sessionClosed
  else
    let role := trimSpace filter.role
    let offset := if filter.offset < 0 then 0 else filter.offset
    let limit := if filter.limit < 0 then 0 else filter.limit
    .ok (collectMessages s.messages role filter.startTime filter.endTime offset limit 0)

/-- minCheckpointPos is the earliest checkpoint WAL position. -/
def minCheckpointPos : List (String × CheckpointState) → Nat
  | [] => 0
  | x :: rest => rest.foldl (fun a p => min a p.2.position) x.2.position

/-- gcLocked mirrors FileSession.gcLocked: with no approval records and at
least one checkpoint, the WAL is truncated at the earliest checkpoint
position (entries below it removed). -/
def FileSession.gcLocked (s : FileSession) : FileSession :=
  if !s.approvals.isEmpty then s
  else if s.checkpoints.isEmpty then s
  else
    let earliest := minCheckpointPos s.checkpoints
    if earliest > 0 then { s with wal := s.wal.filter (fun e => !(e.1 < earliest)) }
    else s

/-- pendingCursors mirrors FileSession.pendingCursors. -/
def FileSession.pendingCursors (s : FileSession) (kind : String) :
    List (Channel × Nat) :=
  setCursor (channelForKind kind) s.next s.cursors

/-- CheckpointOp mirrors FileSession.Checkpoint: normalize the name, snapshot
the transcript, bound the encoded payload, persist a checkpoint record, store
the snapshot in the checkpoint index, then run gcLocked. -/
def FileSession.CheckpointOp (s : FileSession) (name : String) (walFails : Bool) :
    Except SessionErr Unit × FileSession :=
  match normalizeCheckpointName name with
  | .error e => (.error e, s)
  | .ok normalized =>
    if s.closed then (.error .sessionClosed, s)
    else
      let snapshot := cloneMessages s.messages
      let sz := encodedSizeMessages snapshot
      if sz > MaxCheckpointBytes then (.error (.checkpointTooLarge sz), s)
      else
        let cp : CheckpointData :=
          { name := normalized
            timestamp := s.clock + 1
            state := snapshot
            cursors := FileSession.pendingCursors s "checkpoint" }
        let s1 : FileSession := { s with clock := s.clock + 1 }
        match FileSession.appendRecord s1 (.checkpoint cp) walFails with
        | (.error e, s2) => (.error e, s2)
        | (.ok pos, s2) =>
          let st : CheckpointState :=
            { position := pos, payload := cp, snapshot := snapshot }
          let s3 : FileSession :=
            { s2 with checkpoints := upsert normalized st s2.checkpoints }
          (.ok (), FileSession.gcLocked s3)

/-- ResumeOp mirrors FileSession.Resume: normalize the name, find the
checkpoint, persist a resume record, then replace the transcript with the
snapshot and rewind the sequence counter, and run gcLocked. -/
def FileSession.ResumeOp (s : FileSession) (name : String) (walFails : Bool) :
    Except SessionErr Unit × FileSession :=
  match normalizeCheckpointName name with
  | .error e => (.error e, s)
  | .ok normalized =>
    if s.closed then (.error .sessionClosed, s)
    else
      match List.lookup normalized s.checkpoints with
      | none => (.error (.checkpointNotFound normalized), s)
      | some cp =>
        let restore := cloneMessages cp.snapshot
        match FileSession.appendRecord s (.resume normalized) walFails with
        | (.error e, s2) => (.error e, s2)
        | (.ok _, s2) =>
          let s3 : FileSession :=
            { s2 with messages := restore, seq := restore.length }
          (.ok (), FileSession.gcLocked s3)

/-- appendAllOk folds successful Append calls. -/
def FileSession.appendAllOk (s : FileSession) (msgs : List Message) : FileSession :=
  msgs.foldl (fun st m => (FileSession.AppendMsg st m false).2) s


/-- processMessage is the clone FileSession.Append builds: the input message
with a server-assigned id when empty and a server-assigned timestamp when
zero. -/
def processMessage (s : FileSession) (msg : Message) : Message :=
  let withId := if msg.id = "" then { msg with id := s.id ++ "-" ++ pad6 (s.seq + 1) }
    else msg
  if withId.timestamp = 0 then { withId with timestamp := s.clock + 1 } else withId

/-- afterAppend is the state of a successful Append of the processed
message. -/
def FileSession.afterAppend (s : FileSession) (m : Message) : FileSession :=
  { s with
    messages := s.messages ++ [m]
    seq := s.seq + 1
    clock := s.clock + 1
    wal := s.wal ++ [(s.next, .message m)]
    cursors := setCursor .progress s.next s.cursors
    next := s.next + 1 }

theorem AppendMsg_ok (s : FileSession) (msg : Message)
    (hrole : ¬ trimSpace msg.role = "") (hcl : s.closed = false) :
    FileSession.AppendMsg s msg false =
      (.ok (), FileSession.afterAppend s (processMessage s msg)) := by
  simp [FileSession.AppendMsg, FileSession.appendRecord, FileSession.afterAppend,
    processMessage, hrole, hcl, channelForKind, walRecordKind]

theorem AppendMsg_fail (s : FileSession) (msg : Message)
    (hrole : ¬ trimSpace msg.role = "") (hcl : s.closed = false) :
    FileSession.AppendMsg s msg true =
      (.error .walAppendFailed, { s with seq := s.seq + 1, clock := s.clock + 1 }) := by
  simp [FileSession.AppendMsg, FileSession.appendRecord, hrole, hcl]

/-- C10: a message whose role is empty or whitespace is rejected with the
invalid-message error before any state is touched: transcript, sequence
counter, WAL, cursors and checkpoint index are all left exactly as they
were. -/
theorem c10_append_blank_role_rejected (s : FileSession) (msg : Message) (f : Bool)
    (h : trimSpace msg.role = "") :
    (FileSession.AppendMsg s msg f).1 = .error .invalidMessage ∧
    (FileSession.AppendMsg s msg f).2 = s ∧
    ((FileSession.AppendMsg s msg f).2).messages = s.messages ∧
    ((FileSession.AppendMsg s msg f).2).seq = s.seq ∧
    ((FileSession.AppendMsg s msg f).2).wal = s.wal := by
  have he : FileSession.AppendMsg s msg f = (.error .invalidMessage, s) := by
    simp [FileSession.AppendMsg, h]
  rw [he]
  exact ⟨rfl, rfl, rfl, rfl, rfl⟩

/-- Witness for C10: a whitespace-only role on a fresh session. -/
theorem c10_append_blank_role_rejected_witness :
    trimSpace "  " = "" ∧
    (FileSession.AppendMsg (FileSession.mk0 "sess")
        { role := "  ", content := "hi", toolCalls := [], timestamp := 0, id := "" }
        false).1 = .error .invalidMessage ∧
    (FileSession.AppendMsg (FileSession.mk0 "sess")
        { role := "  ", content := "hi", toolCalls := [], timestamp := 0, id := "" }
        false).2 = FileSession.mk0 "sess" :=
  ⟨by decide,
   (c10_append_blank_role_rejected (FileSession.mk0 "sess")
     { role := "  ", content := "hi", toolCalls := [], timestamp := 0, id := "" }
     false (by decide)).1,
   (c10_append_blank_role_rejected (FileSession.mk0 "sess")
     { role := "  ", content := "hi", toolCalls := [], timestamp := 0, id := "" }
     false (by decide)).2.1⟩


/-- preservesMsg relates an input message to the stored clone: every field
preserved except that an unset id or timestamp is server-assigned (to a
non-empty id, a non-zero time). -/
def preservesMsg (input output : Message) : Prop :=
  output.role = input.role ∧ output.content = input.content ∧
  output.toolCalls = input.toolCalls ∧
  (input.id ≠ "" → output.id = input.id) ∧
  (input.id = "" → output.id ≠ "") ∧
  (input.timestamp ≠ 0 → output.timestamp = input.timestamp) ∧
  (input.timestamp = 0 → output.timestamp ≠ 0)

theorem assignedId_ne_empty (s : FileSession) (n : Nat) :
    s.id ++ "-" ++ pad6 n ≠ "" := by
  intro h
  have hl := congrArg String.length h
  rw [String.length_append, String.length_append] at hl
  have h1 : String.length "-" = 1 := by decide
  have h0 : String.length "" = 0 := by decide
  rw [h1, h0] at hl
  omega

theorem processMessage_preserves (s : FileSession) (msg : Message) :
    preservesMsg msg (processMessage s msg) := by
  unfold preservesMsg processMessage
  by_cases hid : msg.id = "" <;> by_cases hts : msg.timestamp = 0 <;>
    simp [hid, hts, assignedId_ne_empty]

theorem appendAllOk_spec (msgs : List Message) (s : FileSession)
    (hroles : ∀ m ∈ msgs, ¬ trimSpace m.role = "") (hcl : s.closed = false) :
    ∃ procs : List Message,
      (FileSession.appendAllOk s msgs).messages = s.messages ++ procs ∧
      (FileSession.appendAllOk s msgs).closed = false ∧
      (FileSession.appendAllOk s msgs).checkpoints = s.checkpoints ∧
      List.Forall₂ preservesMsg msgs procs := by
  induction msgs generalizing s with
  | nil =>
    exact ⟨[], by simp [FileSession.appendAllOk], hcl, rfl, List.Forall₂.nil⟩
  | cons m rest ih =>
    have hm := hroles m (List.mem_cons_self m rest)
    have hstep := AppendMsg_ok s m hm hcl
    have hfold : FileSession.appendAllOk s (m :: rest) =
        FileSession.appendAllOk (FileSession.afterAppend s (processMessage s m)) rest := by
      simp [FileSession.appendAllOk, hstep]
    have hclosed2 : (FileSession.afterAppend s (processMessage s m)).closed = false := hcl
    obtain ⟨procs, h1, h2, h3, h4⟩ :=
      ih (FileSession.afterAppend s (processMessage s m))
        (fun x hx => hroles x (List.mem_cons_of_mem _ hx)) hclosed2
    refine ⟨processMessage s m :: procs, ?_, ?_, ?_,
      List.Forall₂.cons (processMessage_preserves s m) h4⟩
    · rw [hfold, h1]
      simp [FileSession.afterAppend]
    · rw [hfold]
      exact h2
    · rw [hfold, h3]
      rfl

theorem trimSpace_empty : trimSpace "" = "" := by decide

theorem collectMessages_all (msgs : List Message) (cnt : Nat) :
    collectMessages msgs "" none none 0 0 cnt = msgs := by
  induction msgs generalizing cnt with
  | nil => rfl
  | cons m rest ih =>
    simp [collectMessages, skipMsg, ih]

theorem ListOp_empty_filter (s : FileSession) (hcl : s.closed = false) :
    FileSession.ListOp s emptyFilter = .ok s.messages := by
  simp [FileSession.ListOp, emptyFilter, hcl, trimSpace_empty, collectMessages_all]

/-- C4: on a fresh session, appending m1 ... mn (all with valid roles) and
then listing with the empty filter returns exactly n messages, in order, each
related to its input by preservesMsg: every field preserved except that an
unset id or timestamp was server-assigned. -/
theorem c4_append_then_list_roundtrip (sid : String) (msgs : List Message)
    (hroles : ∀ m ∈ msgs, ¬ trimSpace m.role = "") :
    ∃ out : List Message,
      FileSession.ListOp (FileSession.appendAllOk (FileSession.mk0 sid) msgs)
        emptyFilter = .ok out ∧
      out.length = msgs.length ∧
      List.Forall₂ preservesMsg msgs out := by
  obtain ⟨procs, h1, h2, h3, h4⟩ := appendAllOk_spec msgs (FileSession.mk0 sid) hroles rfl
  refine ⟨procs, ?_, (List.Forall₂.length_eq h4).symm, h4⟩
  rw [ListOp_empty_filter _ h2, h1]
  simp [FileSession.mk0]

/-- Witness for C4: two concrete messages, one fully specified, one with
server-assigned id and timestamp. -/
theorem c4_append_then_list_roundtrip_witness :
    (∀ m ∈ [({ role := "user", content := "hello", toolCalls := [],
                timestamp := 7, id := "m1" } : Message),
             { role := "assistant", content := "hi", toolCalls := [],
               timestamp := 0, id := "" }], ¬ trimSpace m.role = "") ∧
    (∃ out : List Message,
      FileSession.ListOp
          (FileSession.appendAllOk (FileSession.mk0 "sess")
            [{ role := "user", content := "hello", toolCalls := [],
               timestamp := 7, id := "m1" },
             { role := "assistant", content := "hi", toolCalls := [],
               timestamp := 0, id := "" }])
          emptyFilter = .ok out ∧
      out.length = 2 ∧
      List.Forall₂ preservesMsg
        [{ role := "user", content := "hello", toolCalls := [],
           timestamp := 7, id := "m1" },
         { role := "assistant", content := "hi", toolCalls := [],
           timestamp := 0, id := "" }] out) :=
  ⟨by decide,
   c4_append_then_list_roundtrip "sess"
     [{ role := "user", content := "hello", toolCalls := [],
        timestamp := 7, id := "m1" },
      { role := "assistant", content := "hi", toolCalls := [],
        timestamp := 0, id := "" }] (by decide)⟩


theorem gcLocked_fields (s : FileSession) :
    (FileSession.gcLocked s).messages = s.messages ∧
    (FileSession.gcLocked s).checkpoints = s.checkpoints ∧
    (FileSession.gcLocked s).closed = s.closed := by
  unfold FileSession.gcLocked
  cases ha : s.approvals.isEmpty <;> cases hc : s.checkpoints.isEmpty <;>
    by_cases h3 : 0 < minCheckpointPos s.checkpoints <;>
      simp [ha, hc, h3]

theorem CheckpointOp_eq (s : FileSession) (name nn : String)
    (hn : normalizeCheckpointName name = .ok nn) (hcl : s.closed = false)
    (hsz : encodedSizeMessages s.messages ≤ MaxCheckpointBytes) :
    FileSession.CheckpointOp s name false =
      (.ok (), FileSession.gcLocked
        { s with
          clock := s.clock + 1
          wal := s.wal ++ [(s.next, WalRecord.checkpoint
            { name := nn
              timestamp := s.clock + 1
              state := cloneMessages s.messages
              cursors := FileSession.pendingCursors s "checkpoint" })]
          cursors := setCursor (channelForKind "checkpoint") s.next s.cursors
          next := s.next + 1
          checkpoints := upsert nn
            { position := s.next
              payload :=
                { name := nn
                  timestamp := s.clock + 1
                  state := cloneMessages s.messages
                  cursors := FileSession.pendingCursors s "checkpoint" }
              snapshot := cloneMessages s.messages } s.checkpoints }) := by
  have hszf : ¬ encodedSizeMessages (cloneMessages s.messages) > MaxCheckpointBytes := by
    simpa [cloneMessages] using not_lt.mpr hsz
  unfold FileSession.CheckpointOp
  rw [hn]
  simp [hcl, hszf, FileSession.appendRecord, walRecordKind]

theorem ResumeOp_eq (s : FileSession) (name nn : String) (st : CheckpointState)
    (hn : normalizeCheckpointName name = .ok nn) (hcl : s.closed = false)
    (hcp : List.lookup nn s.checkpoints = some st) :
    FileSession.ResumeOp s name false =
      (.ok (), FileSession.gcLocked
        { s with
          wal := s.wal ++ [(s.next, WalRecord.resume nn)]
          cursors := setCursor (channelForKind "resume") s.next s.cursors
          next := s.next + 1
          messages := cloneMessages st.snapshot
          seq := (cloneMessages st.snapshot).length }) := by
  unfold FileSession.ResumeOp
  rw [hn]
  simp [hcl, hcp, FileSession.appendRecord, walRecordKind]

/-- C1: Checkpoint(c) then any run of successful Appends then Resume(c)
restores exactly the transcript that existed when the checkpoint was taken:
the Resume succeeds and a List with the empty filter returns the old
messages, in order. The storage oracle is success (Resume of the source can
still fail on a WAL write error, which the claim leaves aside). -/
theorem c1_checkpoint_resume_identity (s0 : FileSession) (name nn : String)
    (msgs : List Message)
    (hn : normalizeCheckpointName name = .ok nn) (hcl : s0.closed = false)
    (hsz : encodedSizeMessages s0.messages ≤ MaxCheckpointBytes)
    (hroles : ∀ m ∈ msgs, ¬ trimSpace m.role = "") :
    ∃ s1 s3, FileSession.CheckpointOp s0 name false = (.ok (), s1) ∧
      FileSession.ResumeOp (FileSession.appendAllOk s1 msgs) name false = (.ok (), s3) ∧
      FileSession.ListOp s3 emptyFilter = .ok s0.messages := by
  have he1 := CheckpointOp_eq s0 name nn hn hcl hsz
  have hs1e : FileSession.CheckpointOp s0 name false =
      (.ok (), (FileSession.CheckpointOp s0 name false).2) := by
    rw [he1]
  have hs1 := congrArg Prod.snd he1
  have hcl1 : ((FileSession.CheckpointOp s0 name false).2).closed = false := by
    rw [hs1, (gcLocked_fields _).2.2]
    exact hcl
  have hck1 : ∃ st : CheckpointState,
      List.lookup nn ((FileSession.CheckpointOp s0 name false).2).checkpoints = some st ∧
      st.snapshot = s0.messages := by
    rw [hs1, (gcLocked_fields _).2.1]
    exact ⟨_, lookup_upsert_self _ _ _, rfl⟩
  obtain ⟨st, hst, hsnap⟩ := hck1
  obtain ⟨procs, hpm, hpc, hpk, hpf⟩ :=
    appendAllOk_spec msgs ((FileSession.CheckpointOp s0 name false).2) hroles hcl1
  have hcp2 : List.lookup nn
      (FileSession.appendAllOk ((FileSession.CheckpointOp s0 name false).2)
        msgs).checkpoints = some st := by
    rw [hpk]
    exact hst
  have he3 := ResumeOp_eq
    (FileSession.appendAllOk ((FileSession.CheckpointOp s0 name false).2) msgs)
    name nn st hn hpc hcp2
  have hs3 := congrArg Prod.snd he3
  have hs3e : FileSession.ResumeOp
      (FileSession.appendAllOk ((FileSession.CheckpointOp s0 name false).2) msgs)
      name false =
      (.ok (), (FileSession.ResumeOp
        (FileSession.appendAllOk ((FileSession.CheckpointOp s0 name false).2) msgs)
        name false).2) := by
    rw [he3]
  have hm3 : ((FileSession.ResumeOp
      (FileSession.appendAllOk ((FileSession.CheckpointOp s0 name false).2) msgs)
      name false).2).messages = s0.messages := by
    rw [hs3, (gcLocked_fields _).1]
    simpa [cloneMessages] using hsnap
  have hc3 : ((FileSession.ResumeOp
      (FileSession.appendAllOk ((FileSession.CheckpointOp s0 name false).2) msgs)
      name false).2).closed = false := by
    rw [hs3, (gcLocked_fields _).2.2]
    exact hpc
  exact ⟨_, _, hs1e, hs3e, by rw [ListOp_empty_filter _ hc3, hm3]⟩

/-- Witness for C1: checkpoint "cp-a" on a one-message transcript, two
further appends, then resume. -/
theorem c1_checkpoint_resume_identity_witness :
    normalizeCheckpointName "cp-a" = .ok "cp-a" ∧
    (∃ s1 s3,
      FileSession.CheckpointOp
          (FileSession.afterAppend (FileSession.mk0 "sess")
            { role := "user", content := "m1", toolCalls := [], timestamp := 1, id := "a" })
          "cp-a" false = (.ok (), s1) ∧
      FileSession.ResumeOp
          (FileSession.appendAllOk s1
            [{ role := "user", content := "m2", toolCalls := [], timestamp := 2, id := "b" },
             { role := "assistant", content := "m3", toolCalls := [], timestamp := 3, id := "c" }])
          "cp-a" false = (.ok (), s3) ∧
      FileSession.ListOp s3 emptyFilter =
        .ok (FileSession.afterAppend (FileSession.mk0 "sess")
          { role := "user", content := "m1", toolCalls := [], timestamp := 1,
            id := "a" }).messages) :=
  ⟨by rfl,
   c1_checkpoint_resume_identity
     (FileSession.afterAppend (FileSession.mk0 "sess")
       { role := "user", content := "m1", toolCalls := [], timestamp := 1, id := "a" })
     "cp-a" "cp-a"
     [{ role := "user", content := "m2", toolCalls := [], timestamp := 2, id := "b" },
      { role := "assistant", content := "m3", toolCalls := [], timestamp := 3, id := "c" }]
     (by rfl) rfl (by decide) (by decide)⟩


theorem RequestOp_miss_fail (q : Queue) (sName tName : String) (p : Params)
    (hs : ¬ trimSpace sName = "") (ht : ¬ trimSpace tName = "")
    (hmiss : List.lookup (whitelistKey (trimSpace sName) (trimSpace tName) p)
      q.whitelist = none) :
    Queue.RequestOp q sName tName p true =
      (.error storeErrMsg,
        Queue.afterPendingInsert q
          (Queue.mkPendingRecord q (trimSpace sName) (trimSpace tName) p)) := by
  have hm : (List.lookup (whitelistKey (trimSpace sName) (trimSpace tName) p)
      q.whitelist).isSome = false := by simp [hmiss]
  simp [Queue.RequestOp, hs, ht, hm]

theorem ApproveOp_found_fail (q : Queue) (id cmt : String) (r0 : Record)
    (hl : List.lookup id q.pending = some r0) :
    Queue.ApproveOp q id cmt true =
      (.error storeErrMsg,
        Queue.afterApprove q id
          (Queue.decidedRecord r0 .approved
            (if trimSpace cmt ≠ "" then cmt else "approved") (q.clock + 1))) := by
  simp [Queue.ApproveOp, hl]

theorem RejectOp_found_fail (q : Queue) (id cmt : String) (r0 : Record)
    (hl : List.lookup id q.pending = some r0) :
    Queue.RejectOp q id cmt true =
      (.error storeErrMsg,
        Queue.afterDecision q id
          (Queue.decidedRecord r0 .rejected
            (if trimSpace cmt ≠ "" then cmt else "rejected") (q.clock + 1))) := by
  simp [Queue.RejectOp, hl]

theorem TimeoutOp_found_fail (q : Queue) (id : String) (r0 : Record)
    (hl : List.lookup id q.pending = some r0) :
    Queue.TimeoutOp q id true =
      (.error storeErrMsg,
        Queue.afterDecision q id
          (Queue.decidedRecord r0 .timeout "timeout" (q.clock + 1))) := by
  simp [Queue.TimeoutOp, hl]

/-- C5 counterexample: on an empty queue, Request with a failing store append
returns the store error, yet the in-memory state is NOT as it was before the
call - the pending map has gained the new record. -/
theorem c5_failed_persist_rollback_counterexample :
    (Queue.RequestOp (⟨[], [], [], [], 0, 0⟩ : Queue) "s" "b" [] true).1 =
      .error storeErrMsg ∧
    ((Queue.RequestOp (⟨[], [], [], [], 0, 0⟩ : Queue) "s" "b" [] true).2).pending ≠
      (⟨[], [], [], [], 0, 0⟩ : Queue).pending := by
  have he := RequestOp_miss_fail ⟨[], [], [], [], 0, 0⟩ "s" "b" []
    (by decide) (by decide) rfl
  rw [he]
  exact ⟨rfl, by simp [Queue.afterPendingInsert, upsert]⟩

/-- C5 as the code actually behaves: FileSession.Append rolls back on a WAL
failure (error surfaced; transcript and WAL unchanged; only the sequence
counter pre-increment persists), while the queue operations do not roll
back: Request's pending path returns the store error with the index and
pending insertions kept and the store untouched; Approve returns the store
error with the pending deletion and the whitelist addition kept; Reject and
Timeout return the store error with the pending deletion kept and the
decided record still installed in the index; and the auto-approved Request
path succeeds ignoring the store failure entirely. -/
theorem c5_failed_persist_behavior :
    (∀ (s : FileSession) (m : Message), ¬ trimSpace m.role = "" → s.closed = false →
      (FileSession.AppendMsg s m true).1 = .error .walAppendFailed ∧
      ((FileSession.AppendMsg s m true).2).messages = s.messages ∧
      ((FileSession.AppendMsg s m true).2).wal = s.wal ∧
      ((FileSession.AppendMsg s m true).2).seq = s.seq + 1) ∧
    (∀ (q : Queue) (sName tName : String) (p : Params),
      ¬ trimSpace sName = "" → ¬ trimSpace tName = "" →
      List.lookup (whitelistKey (trimSpace sName) (trimSpace tName) p)
        q.whitelist = none →
      (Queue.RequestOp q sName tName p true).1 = .error storeErrMsg ∧
      ((Queue.RequestOp q sName tName p true).2).pending =
        upsert (newID q.nextId)
          (Queue.mkPendingRecord q (trimSpace sName) (trimSpace tName) p) q.pending ∧
      ((Queue.RequestOp q sName tName p true).2).index =
        upsert (newID q.nextId)
          (Queue.mkPendingRecord q (trimSpace sName) (trimSpace tName) p) q.index ∧
      ((Queue.RequestOp q sName tName p true).2).store = q.store) ∧
    (∀ (q : Queue) (id cmt : String) (r0 : Record),
      List.lookup id q.pending = some r0 →
      (Queue.ApproveOp q id cmt true).1 = .error storeErrMsg ∧
      List.lookup id ((Queue.ApproveOp q id cmt true).2).pending = none ∧
      (List.lookup (whitelistKey r0.sessionID r0.tool r0.params)
        ((Queue.ApproveOp q id cmt true).2).whitelist).isSome ∧
      ((Queue.ApproveOp q id cmt true).2).store = q.store) ∧
    (∀ (q : Queue) (id cmt : String) (r0 : Record),
      List.lookup id q.pending = some r0 →
      (Queue.RejectOp q id cmt true).1 = .error storeErrMsg ∧
      List.lookup id ((Queue.RejectOp q id cmt true).2).pending = none ∧
      List.lookup id ((Queue.RejectOp q id cmt true).2).index =
        some (Queue.decidedRecord r0 .rejected
          (if trimSpace cmt ≠ "" then cmt else "rejected") (q.clock + 1)) ∧
      ((Queue.RejectOp q id cmt true).2).store = q.store) ∧
    (∀ (q : Queue) (id : String) (r0 : Record),
      List.lookup id q.pending = some r0 →
      (Queue.TimeoutOp q id true).1 = .error storeErrMsg ∧
      List.lookup id ((Queue.TimeoutOp q id true).2).pending = none ∧
      List.lookup id ((Queue.TimeoutOp q id true).2).index =
        some (Queue.decidedRecord r0 .timeout "timeout" (q.clock + 1)) ∧
      ((Queue.TimeoutOp q id true).2).store = q.store) ∧
    (∀ (q : Queue) (sName tName : String) (p : Params),
      ¬ trimSpace sName = "" → ¬ trimSpace tName = "" →
      (List.lookup (whitelistKey (trimSpace sName) (trimSpace tName) p)
        q.whitelist).isSome →
      ∃ r, (Queue.RequestOp q sName tName p true).1 = .ok (r, true) ∧
        ((Queue.RequestOp q sName tName p true).2).store = q.store) := by
  refine ⟨?_, ?_, ?_, ?_, ?_, ?_⟩
  · intro s m hrole hcl
    rw [AppendMsg_fail s m hrole hcl]
    exact ⟨rfl, rfl, rfl, rfl⟩
  · intro q sName tName p hs ht hmiss
    rw [RequestOp_miss_fail q sName tName p hs ht hmiss]
    exact ⟨rfl, rfl, rfl, rfl⟩
  · intro q id cmt r0 hl
    rw [ApproveOp_found_fail q id cmt r0 hl]
    refine ⟨rfl, ?_, ?_, rfl⟩
    · exact lookup_eraseKey_self _ _
    · exact whitelistAdd_lookup_self _ _ _ _ _
  · intro q id cmt r0 hl
    rw [RejectOp_found_fail q id cmt r0 hl]
    exact ⟨rfl, lookup_eraseKey_self _ _, lookup_upsert_self _ _ _, rfl⟩
  · intro q id r0 hl
    rw [TimeoutOp_found_fail q id r0 hl]
    exact ⟨rfl, lookup_eraseKey_self _ _, lookup_upsert_self _ _ _, rfl⟩
  · intro q sName tName p hs ht hhit
    rw [RequestOp_hit_ok q sName tName p true hs ht hhit]
    exact ⟨_, rfl, rfl⟩

/-- qP5 is a queue with one pending record, for the C5 witness. -/
def qP5 : Queue :=
  { index := [(newID 0, Queue.mkPendingRecord ⟨[], [], [], [], 0, 0⟩ "s" "b" [])]
    pending := [(newID 0, Queue.mkPendingRecord ⟨[], [], [], [], 0, 0⟩ "s" "b" [])]
    whitelist := []
    store := []
    nextId := 1
    clock := 1 }

/-- qH5 is a queue whose whitelist already admits (s, b, []), for the C5
witness. -/
def qH5 : Queue :=
  { index := []
    pending := []
    whitelist := [(whitelistKey (trimSpace "s") (trimSpace "b") [],
      { sessionID := "s"
        tool := "b"
        signature := whitelistKey (trimSpace "s") (trimSpace "b") []
        createdAt := 1 })]
    store := []
    nextId := 0
    clock := 0 }

/-- Witness for the amended C5 at concrete states. -/
theorem c5_failed_persist_behavior_witness :
    ((FileSession.AppendMsg (FileSession.mk0 "x")
        { role := "user", content := "m", toolCalls := [], timestamp := 0, id := "" }
        true).1 = .error .walAppendFailed ∧
      ((FileSession.AppendMsg (FileSession.mk0 "x")
        { role := "user", content := "m", toolCalls := [], timestamp := 0, id := "" }
        true).2).messages = (FileSession.mk0 "x").messages) ∧
    (Queue.RequestOp (⟨[], [], [], [], 0, 0⟩ : Queue) "s" "b" [] true).1 =
      .error storeErrMsg ∧
    (Queue.ApproveOp qP5 (newID 0) "c" true).1 = .error storeErrMsg ∧
    ((Queue.RejectOp qP5 (newID 0) "c" true).1 = .error storeErrMsg ∧
      List.lookup (newID 0) ((Queue.RejectOp qP5 (newID 0) "c" true).2).pending =
        none) ∧
    ((Queue.TimeoutOp qP5 (newID 0) true).1 = .error storeErrMsg ∧
      List.lookup (newID 0) ((Queue.TimeoutOp qP5 (newID 0) true).2).pending =
        none) ∧
    (∃ r, (Queue.RequestOp qH5 "s" "b" [] true).1 = .ok (r, true)) := by
  have h1 := c5_failed_persist_behavior.1 (FileSession.mk0 "x")
    { role := "user", content := "m", toolCalls := [], timestamp := 0, id := "" }
    (by decide) rfl
  have h2 := c5_failed_persist_behavior.2.1 (⟨[], [], [], [], 0, 0⟩ : Queue)
    "s" "b" [] (by decide) (by decide) rfl
  have hlp : List.lookup (newID 0) qP5.pending =
      some (Queue.mkPendingRecord ⟨[], [], [], [], 0, 0⟩ "s" "b" []) := by
    show List.lookup (newID 0)
      [(newID 0, Queue.mkPendingRecord ⟨[], [], [], [], 0, 0⟩ "s" "b" [])] = _
    rw [lookup_cons_key, if_pos rfl]
  have h3 := c5_failed_persist_behavior.2.2.1 qP5 (newID 0) "c"
    (Queue.mkPendingRecord ⟨[], [], [], [], 0, 0⟩ "s" "b" []) hlp
  have h5 := c5_failed_persist_behavior.2.2.2.1 qP5 (newID 0) "c"
    (Queue.mkPendingRecord ⟨[], [], [], [], 0, 0⟩ "s" "b" []) hlp
  have h6 := c5_failed_persist_behavior.2.2.2.2.1 qP5 (newID 0)
    (Queue.mkPendingRecord ⟨[], [], [], [], 0, 0⟩ "s" "b" []) hlp
  have hlh : (List.lookup (whitelistKey (trimSpace "s") (trimSpace "b") [])
      qH5.whitelist).isSome := by
    show (List.lookup (whitelistKey (trimSpace "s") (trimSpace "b") [])
      [(whitelistKey (trimSpace "s") (trimSpace "b") [], _)]).isSome
    rw [lookup_cons_key, if_pos rfl]
    rfl
  have h4 := c5_failed_persist_behavior.2.2.2.2.2 qH5 "s" "b" []
    (by decide) (by decide) hlh
  obtain ⟨r, hr, _⟩ := h4
  exact ⟨⟨h1.1, h1.2.1⟩, h2.1, h3.1, ⟨h5.1, h5.2.1⟩, ⟨h6.1, h6.2.1⟩, ⟨r, hr⟩⟩


/-- Middleware models the registered middlewares of pkg/middleware/stack.go
by the two observables the Stack consults: name and priority. -/
structure Middleware where
  name : String
  priority : Int

/-- MwLE orders middlewares by ascending priority. -/
abbrev MwLE (a b : Middleware) : Prop := a.priority ≤ b.priority

/-- insertMw is the stable ascending insertion underlying sortLocked. -/
def insertMw (x : Middleware) : List Middleware → List Middleware
  | [] => [x]
  | y :: ys => if x.priority ≤ y.priority then x :: y :: ys else y :: insertMw x ys

/-- sortLocked mirrors Stack.sortLocked: a stable sort by ascending priority
(sort.SliceStable with less = Priority i < Priority j). -/
def sortLocked : List Middleware → List Middleware
  | [] => []
  | x :: xs => insertMw x (sortLocked xs)

/-- Use mirrors Stack.Use: append then keep the slice in stable ascending
priority order. -/
def Use (s : List Middleware) (m : Middleware) : List Middleware :=
  sortLocked (s ++ [m])

/-- buildStack registers middlewares in order into an empty stack. -/
def buildStack (ms : List Middleware) : List Middleware := ms.foldl Use []

/-- startSeq is the order Stack.Start invokes OnStart hooks: the snapshot
slice order. -/
def startSeq (s : List Middleware) : List Middleware := s

/-- stopSeq is the order Stack.Stop invokes OnStop hooks: the snapshot slice
in reverse. -/
def stopSeq (s : List Middleware) : List Middleware := s.reverse

theorem insertMw_perm (x : Middleware) (l : List Middleware) :
    List.Perm (insertMw x l) (x :: l) := by
  induction l with
  | nil => simp [insertMw]
  | cons y ys ih =>
    simp only [insertMw]
    by_cases h : x.priority ≤ y.priority
    · simp [h]
    · simp only [if_neg h]
      exact (ih.cons y).trans (List.Perm.swap x y ys)

theorem insertMw_pairwise {x : Middleware} {l : List Middleware}
    (h : List.Pairwise MwLE l) : List.Pairwise MwLE (insertMw x l) := by
  induction l with
  | nil => simp [insertMw]
  | cons y ys ih =>
    rcases List.pairwise_cons.mp h with ⟨hy, hys⟩
    simp only [insertMw]
    by_cases hle : x.priority ≤ y.priority
    · simp only [if_pos hle]
      refine List.pairwise_cons.mpr ⟨?_, h⟩
      intro z hz
      rcases List.mem_cons.mp hz with rfl | hz
      · exact hle
      · exact le_trans hle (hy z hz)
    · simp only [if_neg hle]
      refine List.pairwise_cons.mpr ⟨?_, ih hys⟩
      intro z hz
      rcases List.mem_cons.mp ((insertMw_perm x ys).mem_iff.mp hz) with rfl | hz2
      · exact le_of_not_le hle
      · exact hy z hz2

theorem sortLocked_pairwise (l : List Middleware) :
    List.Pairwise MwLE (sortLocked l) := by
  induction l with
  | nil => simp [sortLocked]
  | cons x xs ih => exact insertMw_pairwise ih

theorem buildStack_pairwise (ms : List Middleware) :
    List.Pairwise MwLE (buildStack ms) := by
  have H : ∀ (rest : List Middleware) (acc : List Middleware),
      List.Pairwise MwLE acc → List.Pairwise MwLE (List.foldl Use acc rest) := by
    intro rest
    induction rest with
    | nil => intro acc h; exact h
    | cons m tail ih =>
      intro acc _
      exact ih (Use acc m) (sortLocked_pairwise _)
  exact H ms [] (List.Pairwise.nil)

/-- Counterexample for C7: registering priorities 1 and 2, Start runs the
priority-1 middleware first (ascending, not the claimed descending), and
Stop runs the priority-2 middleware first (so the highest priority does not
stop last). -/
theorem c7_start_stop_order_counterexample :
    ¬ (List.Pairwise (fun a b : Middleware => b.priority ≤ a.priority)
        (startSeq (buildStack [⟨"low", 1⟩, ⟨"high", 2⟩])) ∧
      List.Pairwise (fun a b : Middleware => a.priority ≤ b.priority)
        (stopSeq (buildStack [⟨"low", 1⟩, ⟨"high", 2⟩]))) := by
  intro h
  have h1 : startSeq (buildStack [⟨"low", 1⟩, ⟨"high", 2⟩]) =
      [⟨"low", 1⟩, ⟨"high", 2⟩] := by
    simp [buildStack, Use, sortLocked, insertMw, startSeq]
  rw [h1] at h
  have := (List.pairwise_cons.mp h.1).1 ⟨"high", 2⟩ (List.mem_singleton.mpr rfl)
  simp at this

/-- C7 as the code actually behaves: the stack slice is kept in stable
ascending priority order, Start invokes OnStart lowest-priority first, and
Stop walks the slice backwards, so the highest priority stops first and the
lowest stops last. -/
theorem c7_start_ascending_stop_descending (ms : List Middleware) :
    List.Pairwise (fun a b : Middleware => a.priority ≤ b.priority)
      (startSeq (buildStack ms)) ∧
    stopSeq (buildStack ms) = (startSeq (buildStack ms)).reverse ∧
    List.Pairwise (fun a b : Middleware => b.priority ≤ a.priority)
      (stopSeq (buildStack ms)) := by
  refine ⟨buildStack_pairwise ms, rfl, ?_⟩
  rw [show stopSeq (buildStack ms) = (buildStack ms).reverse from rfl]
  rw [List.pairwise_reverse]
  exact buildStack_pairwise ms


/-- maxBashOutputLen is the output cap of the bash tool. Modelled from the
spec: the constant lives in the bash tool file absent from src/; the spec and
the stream test pin 30,000 characters. -/
def maxBashOutputLen : Nat := 30000

/-- StreamAcc mirrors streamAccumulator: a shared running total and separate
stdout / stderr builders (text as char lists). -/
structure StreamAcc where
  total : Nat
  stdout : List Char
  stderr : List Char

/-- StreamAcc.append mirrors streamAccumulator.append: nothing once the cap
is reached, otherwise the text sliced to the remaining budget and written to
the builder of its stream. -/
def StreamAcc.append (a : StreamAcc) (text : List Char) (isStderr : Bool) :
    StreamAcc :=
  if a.total ≥ maxBashOutputLen then a
  else
    let remaining := maxBashOutputLen - a.total
    let text2 := if text.length > remaining then text.take remaining else text
    if isStderr then
      { a with stderr := a.stderr ++ text2, total := a.total + text2.length }
    else
      { a with stdout := a.stdout ++ text2, total := a.total + text2.length }

/-- truncateOutput mirrors truncateOutput: the first maxBashOutputLen
characters. -/
def truncateOutput (text : List Char) : List Char :=
  if text.length > maxBashOutputLen then text.take maxBashOutputLen else text

/-- combineOutput joins the captured stdout and stderr texts. Modelled from
the spec: its definition lives in the bash tool file absent from src/; the
stream test pins stdout content followed by stderr content. -/
def combineOutput (stdout stderr : List Char) : List Char := stdout ++ stderr

/-- consumeEvent mirrors one scanner line of consumeStream: the line is
delivered to emit, then accumulated, then a newline is accumulated. -/
def consumeEvent (a : StreamAcc) (e : List Char × Bool) : StreamAcc :=
  StreamAcc.append (StreamAcc.append a e.1 e.2) ['\n'] e.2

/-- streamRun is the final ToolResult.Output of StreamExecute as a function
of the emitted (chunk, isStderr) events:
truncateOutput(combineOutput(stdout, stderr)). -/
def streamRun (events : List (List Char × Bool)) : List Char :=
  let acc := events.foldl consumeEvent ⟨0, [], []⟩
  truncateOutput (combineOutput acc.stdout acc.stderr)

/-- emittedChunks lists the chunks delivered to the emit callback, in
order. -/
def emittedChunks (events : List (List Char × Bool)) : List (List Char) :=
  events.map Prod.fst

/-- stdoutLines lists the stdout chunks in order. -/
def stdoutLines (events : List (List Char × Bool)) : List (List Char) :=
  (events.filter (fun e => !e.2)).map Prod.fst

/-- stderrLines lists the stderr chunks in order. -/
def stderrLines (events : List (List Char × Bool)) : List (List Char) :=
  (events.filter (fun e => e.2)).map Prod.fst

/-- withNewlines renders chunks as lines, each followed by a newline. -/
def withNewlines (xs : List (List Char)) : List Char :=
  (xs.map (fun x => x ++ ['\n'])).flatten

/-- Counterexample for C9: the final output is not the truncated
concatenation of the emitted chunks. A single stdout chunk gains a newline
the emit callback never saw; and with an stderr chunk observed before a
stdout chunk, the final output groups the stdout text first, not the
observed order (even with newlines accounted for). -/
theorem c9_output_not_chunk_concat_counterexample :
    streamRun [(['h', 'i'], false)] ≠
      truncateOutput (List.flatten (emittedChunks [(['h', 'i'], false)])) ∧
    streamRun [(['a'], true), (['b'], false)] ≠
      truncateOutput (List.flatten (emittedChunks [(['a'], true), (['b'], false)])) ∧
    streamRun [(['a'], true), (['b'], false)] ≠ ['a', '\n', 'b', '\n'] := by
  refine ⟨?_, ?_, ?_⟩ <;> decide

theorem truncateOutput_length (t : List Char) :
    (truncateOutput t).length ≤ maxBashOutputLen := by
  unfold truncateOutput
  by_cases h : t.length > maxBashOutputLen
  · simp [h]
  · simp [h]
    omega

theorem streamAppend_no_trunc_out (a : StreamAcc) (text : List Char)
    (hle : a.total + text.length ≤ maxBashOutputLen) :
    StreamAcc.append a text false =
      { total := a.total + text.length, stdout := a.stdout ++ text,
        stderr := a.stderr } := by
  obtain ⟨tot, out, err⟩ := a
  simp only at hle
  unfold StreamAcc.append
  by_cases hge : tot ≥ maxBashOutputLen
  · have hlen : text.length = 0 := by simp only at hge ⊢; omega
    have htx : text = [] := List.length_eq_zero.mp hlen
    subst htx
    simp [hge]
  · have hrem : ¬ (text.length > maxBashOutputLen - tot) := by
      simp only at hge ⊢
      omega
    simp [hge, hrem]

theorem streamAppend_no_trunc_err (a : StreamAcc) (text : List Char)
    (hle : a.total + text.length ≤ maxBashOutputLen) :
    StreamAcc.append a text true =
      { total := a.total + text.length, stdout := a.stdout,
        stderr := a.stderr ++ text } := by
  obtain ⟨tot, out, err⟩ := a
  simp only at hle
  unfold StreamAcc.append
  by_cases hge : tot ≥ maxBashOutputLen
  · have hlen : text.length = 0 := by simp only at hge ⊢; omega
    have htx : text = [] := List.length_eq_zero.mp hlen
    subst htx
    simp [hge]
  · have hrem : ¬ (text.length > maxBashOutputLen - tot) := by
      simp only at hge ⊢
      omega
    simp [hge, hrem]

theorem streamFold_no_trunc (events : List (List Char × Bool)) :
    ∀ a : StreamAcc,
      a.total = a.stdout.length + a.stderr.length →
      a.total + (events.map (fun e => e.1.length + 1)).sum ≤ maxBashOutputLen →
      (events.foldl consumeEvent a).stdout =
        a.stdout ++ withNewlines (stdoutLines events) ∧
      (events.foldl consumeEvent a).stderr =
        a.stderr ++ withNewlines (stderrLines events) ∧
      (events.foldl consumeEvent a).total =
        a.total + (events.map (fun e => e.1.length + 1)).sum ∧
      (events.foldl consumeEvent a).total =
        (events.foldl consumeEvent a).stdout.length +
          (events.foldl consumeEvent a).stderr.length := by
  induction events with
  | nil =>
    intro a hinv hle
    simpa [withNewlines, stdoutLines, stderrLines] using hinv
  | cons e rest ih =>
    intro a hinv hle
    obtain ⟨text, isErr⟩ := e
    simp only [List.map_cons, List.sum_cons] at hle
    have hle1 : a.total + text.length ≤ maxBashOutputLen := by omega
    cases isErr with
    | false =>
      have hstep : consumeEvent a (text, false) =
          { total := a.total + text.length + 1,
            stdout := (a.stdout ++ text) ++ ['\n'], stderr := a.stderr } := by
        unfold consumeEvent
        rw [show ((text, false) : List Char × Bool).1 = text from rfl,
          show ((text, false) : List Char × Bool).2 = false from rfl,
          streamAppend_no_trunc_out a text hle1,
          streamAppend_no_trunc_out _ _ (by simp; omega)]
        simp
      have hinv2 : (consumeEvent a (text, false)).total =
          (consumeEvent a (text, false)).stdout.length +
            (consumeEvent a (text, false)).stderr.length := by
        rw [hstep]
        simp
        omega
      have hle3 : (consumeEvent a (text, false)).total +
          (rest.map (fun e => e.1.length + 1)).sum ≤ maxBashOutputLen := by
        rw [hstep]
        simp only
        omega
      obtain ⟨ho, he, ht, hi⟩ := ih (consumeEvent a (text, false)) hinv2 hle3
      refine ⟨?_, ?_, ?_, hi⟩
      · rw [show (((text, false) :: rest).foldl consumeEvent a) =
          rest.foldl consumeEvent (consumeEvent a (text, false)) from rfl]
        rw [ho, hstep]
        simp [withNewlines, stdoutLines, stderrLines]
      · rw [show (((text, false) :: rest).foldl consumeEvent a) =
          rest.foldl consumeEvent (consumeEvent a (text, false)) from rfl]
        rw [he, hstep]
        simp [withNewlines, stdoutLines, stderrLines]
      · rw [show (((text, false) :: rest).foldl consumeEvent a) =
          rest.foldl consumeEvent (consumeEvent a (text, false)) from rfl]
        rw [ht, hstep]
        simp only [List.map_cons, List.sum_cons]
        omega
    | true =>
      have hstep : consumeEvent a (text, true) =
          { total := a.total + text.length + 1, stdout := a.stdout,
            stderr := (a.stderr ++ text) ++ ['\n'] } := by
        unfold consumeEvent
        rw [show ((text, true) : List Char × Bool).1 = text from rfl,
          show ((text, true) : List Char × Bool).2 = true from rfl,
          streamAppend_no_trunc_err a text hle1,
          streamAppend_no_trunc_err _ _ (by simp; omega)]
        simp
      have hinv2 : (consumeEvent a (text, true)).total =
          (consumeEvent a (text, true)).stdout.length +
            (consumeEvent a (text, true)).stderr.length := by
        rw [hstep]
        simp
        omega
      have hle3 : (consumeEvent a (text, true)).total +
          (rest.map (fun e => e.1.length + 1)).sum ≤ maxBashOutputLen := by
        rw [hstep]
        simp only
        omega
      obtain ⟨ho, he, ht, hi⟩ := ih (consumeEvent a (text, true)) hinv2 hle3
      refine ⟨?_, ?_, ?_, hi⟩
      · rw [show (((text, true) :: rest).foldl consumeEvent a) =
          rest.foldl consumeEvent (consumeEvent a (text, true)) from rfl]
        rw [ho, hstep]
        simp [withNewlines, stdoutLines, stderrLines]
      · rw [show (((text, true) :: rest).foldl consumeEvent a) =
          rest.foldl consumeEvent (consumeEvent a (text, true)) from rfl]
        rw [he, hstep]
        simp [withNewlines, stdoutLines, stderrLines]
      · rw [show (((text, true) :: rest).foldl consumeEvent a) =
          rest.foldl consumeEvent (consumeEvent a (text, true)) from rfl]
        rw [ht, hstep]
        simp only [List.map_cons, List.sum_cons]
        omega

/-- C9 as the code actually behaves: the final Output never exceeds the
30,000-character cap, and whenever the emitted lines (each line plus its
newline) fit within the cap, the final Output is exactly the stdout lines in
order, each with a newline, followed by the stderr lines in order, each with
a newline - the stream grouping of the accumulator, not the interleaved
emit order, with a content of exactly the cap preserved verbatim. -/
theorem c9_output_grouped_truncated (events : List (List Char × Bool)) :
    (streamRun events).length ≤ maxBashOutputLen ∧
    ((events.map (fun e => e.1.length + 1)).sum ≤ maxBashOutputLen →
      streamRun events =
        withNewlines (stdoutLines events) ++ withNewlines (stderrLines events)) := by
  constructor
  · exact truncateOutput_length _
  · intro hle
    obtain ⟨ho, he, ht, hi⟩ := streamFold_no_trunc events ⟨0, [], []⟩ (by simp)
      (by simpa using hle)
    show truncateOutput (combineOutput
      (List.foldl consumeEvent ⟨0, [], []⟩ events).stdout
      (List.foldl consumeEvent ⟨0, [], []⟩ events).stderr) = _
    unfold combineOutput
    rw [ho, he]
    simp only [List.nil_append]
    unfold truncateOutput
    have hlen : (withNewlines (stdoutLines events) ++
        withNewlines (stderrLines events)).length ≤ maxBashOutputLen := by
      rw [ho, he] at hi
      simp only [List.nil_append] at hi ht
      rw [List.length_append]
      omega
    rw [if_neg (by omega)]

/-- Witness for the amended C9: two short lines, one per stream, observed
stderr first. -/
theorem c9_output_grouped_truncated_witness :
    (streamRun [(['e'], true), (['o'], false)]).length ≤ maxBashOutputLen ∧
    ([(['e'], true), (['o'], false)].map
      (fun e : List Char × Bool => e.1.length + 1)).sum ≤ maxBashOutputLen ∧
    streamRun [(['e'], true), (['o'], false)] = ['o', '\n', 'e', '\n'] := by
  refine ⟨(c9_output_grouped_truncated _).1, by decide, ?_⟩
  have h := (c9_output_grouped_truncated [(['e'], true), (['o'], false)]).2 (by decide)
  rw [h]
  decide


/-- RecordMeta mirrors recordMeta: the fields of a stored approval record the
GC consults - id, requested time (ns), WAL position and entry size. -/
structure RecordMeta where
  id : String
  requested : Int
  position : Int
  size : Nat

/-- GCCfg mirrors gcConfig (the retention knobs; non-positive disables). -/
structure GCCfg where
  retentionDays : Int
  retentionCount : Int
  retentionBytes : Int

/-- nsPerDay is 24h in time.Duration nanoseconds. -/
def nsPerDay : Int := 86400000000000

/-- RecLE is the snapshotRecordsLocked order: by requested time, ties broken
by id. -/
def RecLE (a b : RecordMeta) : Prop :=
  a.requested < b.requested ∨ (a.requested = b.requested ∧ a.id ≤ b.id)

instance (a b : RecordMeta) : Decidable (RecLE a b) := by
  unfold RecLE
  infer_instance

theorem recLE_total (a b : RecordMeta) : RecLE a b ∨ RecLE b a := by
  unfold RecLE
  rcases lt_trichotomy a.requested b.requested with h | h | h
  · exact Or.inl (Or.inl h)
  · rcases le_total a.id b.id with h2 | h2
    · exact Or.inl (Or.inr ⟨h, h2⟩)
    · exact Or.inr (Or.inr ⟨h.symm, h2⟩)
  · exact Or.inr (Or.inl h)

theorem recLE_trans {a b c : RecordMeta} (h1 : RecLE a b) (h2 : RecLE b c) :
    RecLE a c := by
  unfold RecLE at *
  rcases h1 with h1 | ⟨h1, h1b⟩ <;> rcases h2 with h2 | ⟨h2, h2b⟩
  · exact Or.inl (lt_trans h1 h2)
  · exact Or.inl (h2 ▸ h1)
  · exact Or.inl (h1 ▸ h2)
  · exact Or.inr ⟨h1.trans h2, le_trans h1b h2b⟩

theorem recLE_requested {a b : RecordMeta} (h : RecLE a b) :
    a.requested ≤ b.requested := by
  rcases h with h | ⟨h, _⟩
  · exact le_of_lt h
  · exact le_of_eq h

/-- insertRec is the insertion step of the record sort. -/
def insertRec (x : RecordMeta) : List RecordMeta → List RecordMeta
  | [] => [x]
  | y :: ys => if RecLE x y then x :: y :: ys else y :: insertRec x ys

/-- sortRecords mirrors snapshotRecordsLocked: the records ordered by
(requested, id). -/
def sortRecords : List RecordMeta → List RecordMeta
  | [] => []
  | x :: xs => insertRec x (sortRecords xs)

theorem insertRec_perm (x : RecordMeta) (l : List RecordMeta) :
    List.Perm (insertRec x l) (x :: l) := by
  induction l with
  | nil => simp [insertRec]
  | cons y ys ih =>
    simp only [insertRec]
    by_cases h : RecLE x y
    · simp [h]
    · simp only [if_neg h]
      exact (ih.cons y).trans (List.Perm.swap x y ys)

theorem sortRecords_perm (l : List RecordMeta) :
    List.Perm (sortRecords l) l := by
  induction l with
  | nil => simp [sortRecords]
  | cons x xs ih => exact (insertRec_perm x (sortRecords xs)).trans (ih.cons x)

theorem insertRec_pairwise {x : RecordMeta} {l : List RecordMeta}
    (h : List.Pairwise RecLE l) : List.Pairwise RecLE (insertRec x l) := by
  induction l with
  | nil => simp [insertRec]
  | cons y ys ih =>
    rcases List.pairwise_cons.mp h with ⟨hy, hys⟩
    simp only [insertRec]
    by_cases hle : RecLE x y
    · simp only [if_pos hle]
      refine List.pairwise_cons.mpr ⟨?_, h⟩
      intro z hz
      rcases List.mem_cons.mp hz with heq | hz2
      · rw [heq]
        exact hle
      · exact recLE_trans hle (hy z hz2)
    · simp only [if_neg hle]
      refine List.pairwise_cons.mpr ⟨?_, ih hys⟩
      intro z hz
      rcases List.mem_cons.mp ((insertRec_perm x ys).mem_iff.mp hz) with heq | hz2
      · rw [heq]
        exact (recLE_total x y).resolve_left hle
      · exact hy z hz2

theorem sortRecords_pairwise (l : List RecordMeta) :
    List.Pairwise RecLE (sortRecords l) := by
  induction l with
  | nil => simp [sortRecords]
  | cons x xs ih => exact insertRec_pairwise ih

/-- sumSizes is the total entry-byte footprint of a record list. -/
def sumSizes (entries : List RecordMeta) : Nat :=
  (entries.map (fun e => e.size)).sum

/-- searchGE mirrors the sort.Search call of computeKeepStart: the least
index whose record is not requested before the cutoff (the list length when
there is none); the binary search is valid because the entries are sorted by
requested time. -/
def searchGE (entries : List RecordMeta) (cutoff : Int) : Nat :=
  entries.findIdx (fun e => decide (cutoff ≤ e.requested))

/-- bytesKeep mirrors the byte-trimming loop of computeKeepStart: drop
leading entries while the remaining footprint rem exceeds the byte budget,
returning how many were dropped. -/
def bytesKeep : List Nat → Int → Int → Nat
  | [], _, _ => 0
  | sz :: rest, rem, bytes =>
    if rem > bytes then bytesKeep rest (rem - sz) bytes + 1 else 0

/-- computeKeepStart mirrors computeKeepStart: the first index kept, the
maximum of the cut points demanded by the active day, count and byte
retention thresholds, clamped to the list length. -/
def computeKeepStart (entries : List RecordMeta) (cfg : GCCfg) (now : Int) : Nat :=
  let keep0 : Nat := 0
  let keep1 := if cfg.retentionDays > 0 then
      max keep0 (searchGE entries (now - cfg.retentionDays * nsPerDay))
    else keep0
  let keep2 := if cfg.retentionCount > 0 ∧ (entries.length : Int) > cfg.retentionCount then
      max keep1 ((entries.length : Int) - cfg.retentionCount).toNat
    else keep1
  let keep3 := if cfg.retentionBytes > 0 ∧ (sumSizes entries : Int) > cfg.retentionBytes then
      max keep2 (bytesKeep (entries.map (fun e => e.size)) (sumSizes entries)
        cfg.retentionBytes)
    else keep2
  min keep3 entries.length

/-- GCLogState carries the RecordLog data runGCWithConfig touches: the record
map contents, the WAL (position-tagged entries) and nextPosition. -/
structure GCLogState where
  records : List RecordMeta
  wal : List (Int × String)
  nextPosition : Int

/-- GCOutcome reports one GC run: the kept (sorted) records, the dropped
ids, and the Truncate argument when truncation happened. -/
structure GCOutcome where
  kept : List RecordMeta
  dropped : List String
  truncatedAt : Option Int

/-- runGCWithConfig mirrors RecordLog.runGCWithConfig: snapshot and sort the
records, compute the keep start, then drop the leading records from the maps
and truncate the WAL at the position of the first kept record (nextPosition
when none are kept). Nothing happens when the log is empty or keepStart is
zero. -/
def runGCWithConfig (st : GCLogState) (cfg : GCCfg) (now : Int) :
    GCLogState × GCOutcome :=
  let entries := sortRecords st.records
  if entries.isEmpty then (st, { kept := entries, dropped := [], truncatedAt := none })
  else
    let keepStart := computeKeepStart entries cfg now
    if keepStart = 0 then
      (st, { kept := entries, dropped := [], truncatedAt := none })
    else
      let dropIDs := (entries.take keepStart).map (fun e => e.id)
      let truncatePos := if keepStart < entries.length then
          (entries.getD keepStart ⟨"", 0, 0, 0⟩).position
        else st.nextPosition
      let st2 : GCLogState :=
        { st with
          records := st.records.filter (fun r => !(dropIDs.contains r.id))
          wal := st.wal.filter (fun e => !(e.1 < truncatePos)) }
      (st2,
        { kept := entries.drop keepStart
          dropped := dropIDs
          truncatedAt := some truncatePos })

theorem mem_drop_mono {α : Type} {l : List α} {m k : Nat} (h : m ≤ k) {a : α}
    (ha : a ∈ l.drop k) : a ∈ l.drop m := by
  have h2 : (l.drop m).drop (k - m) = l.drop k := by
    rw [List.drop_drop]
    congr 1
    omega
  rw [← h2] at ha
  exact List.mem_of_mem_drop ha

theorem sum_drop_le_sum_drop (l : List Nat) {m k : Nat} (h : m ≤ k) :
    (l.drop k).sum ≤ (l.drop m).sum := by
  have h2 : (l.drop m).drop (k - m) = l.drop k := by
    rw [List.drop_drop]
    congr 1
    omega
  rw [← h2]
  exact List.Sublist.sum_le_sum (List.drop_sublist _ _) (fun a _ => Nat.zero_le a)

theorem searchGE_le_length (entries : List RecordMeta) (cutoff : Int) :
    searchGE entries cutoff ≤ entries.length :=
  List.findIdx_le_length _

theorem searchGE_suffix {entries : List RecordMeta}
    (hs : List.Pairwise RecLE entries) (cutoff : Int) :
    ∀ e ∈ entries.drop (searchGE entries cutoff), cutoff ≤ e.requested := by
  induction entries with
  | nil =>
    intro e he
    simp [searchGE] at he
  | cons x xs ih =>
    rcases List.pairwise_cons.mp hs with ⟨hx, hxs⟩
    intro e he
    by_cases hp : cutoff ≤ x.requested
    · have h0 : searchGE (x :: xs) cutoff = 0 := by
        simp [searchGE, List.findIdx_cons, hp]
      rw [h0, List.drop_zero] at he
      rcases List.mem_cons.mp he with heq | he2
      · rw [heq]
        exact hp
      · exact le_trans hp (recLE_requested (hx e he2))
    · have h1 : searchGE (x :: xs) cutoff = searchGE xs cutoff + 1 := by
        simp [searchGE, List.findIdx_cons, hp]
      rw [h1, List.drop_succ_cons] at he
      exact ih hxs e he

theorem searchGE_min {entries : List RecordMeta} {cutoff : Int} {j : Nat}
    (hj : j < searchGE entries cutoff) :
    ∃ e ∈ entries.drop j, e.requested < cutoff := by
  induction entries generalizing j with
  | nil => simp [searchGE] at hj
  | cons x xs ih =>
    by_cases hp : cutoff ≤ x.requested
    · have h0 : searchGE (x :: xs) cutoff = 0 := by
        simp [searchGE, List.findIdx_cons, hp]
      omega
    · have h1 : searchGE (x :: xs) cutoff = searchGE xs cutoff + 1 := by
        simp [searchGE, List.findIdx_cons, hp]
      rw [h1] at hj
      cases j with
      | zero => exact ⟨x, by simp, lt_of_not_le hp⟩
      | succ j =>
        have hj2 : j < searchGE xs cutoff := by omega
        rcases ih hj2 with ⟨e, he, hlt⟩
        refine ⟨e, ?_, hlt⟩
        rw [List.drop_succ_cons]
        exact he

theorem bytesKeep_le_length (sizes : List Nat) (rem bytes : Int) :
    bytesKeep sizes rem bytes ≤ sizes.length := by
  induction sizes generalizing rem with
  | nil => simp [bytesKeep]
  | cons sz rest ih =>
    by_cases h : rem > bytes
    · simp only [bytesKeep, if_pos h, List.length_cons]
      exact Nat.succ_le_succ (ih (rem - sz))
    · simp [bytesKeep, if_neg h]

theorem bytesKeep_suffix (sizes : List Nat) (rem bytes : Int)
    (hrem : rem = (sizes.sum : Int)) (hb : 0 ≤ bytes) :
    ((sizes.drop (bytesKeep sizes rem bytes)).sum : Int) ≤ bytes := by
  induction sizes generalizing rem with
  | nil => simpa [bytesKeep] using hb
  | cons sz rest ih =>
    by_cases h : rem > bytes
    · simp only [bytesKeep, if_pos h, List.drop_succ_cons]
      refine ih (rem - sz) ?_
      rw [hrem]
      push_cast [List.sum_cons]
      ring
    · simp only [bytesKeep, if_neg h, List.drop_zero]
      rw [hrem] at h
      omega

theorem bytesKeep_min (sizes : List Nat) (rem bytes : Int)
    (hrem : rem = (sizes.sum : Int)) {j : Nat}
    (hj : j < bytesKeep sizes rem bytes) :
    bytes < ((sizes.drop j).sum : Int) := by
  induction sizes generalizing rem j with
  | nil => simp [bytesKeep] at hj
  | cons sz rest ih =>
    by_cases h : rem > bytes
    · rw [show bytesKeep (sz :: rest) rem bytes
          = bytesKeep rest (rem - sz) bytes + 1 from by
        simp [bytesKeep, if_pos h]] at hj
      cases j with
      | zero =>
        rw [List.drop_zero, ← hrem]
        exact h
      | succ j =>
        rw [List.drop_succ_cons]
        have hj2 : j < bytesKeep rest (rem - sz) bytes := by omega
        refine ih (rem - sz) ?_ hj2
        rw [hrem]
        push_cast [List.sum_cons]
        ring
    · simp [bytesKeep, if_neg h] at hj

theorem sumSizes_drop (entries : List RecordMeta) (j : Nat) :
    sumSizes (entries.drop j) = ((entries.map (fun e => e.size)).drop j).sum := by
  simp [sumSizes, List.map_drop]


/-- suffixOK says the records from index j on satisfy every active retention
threshold: none requested before the day cutoff, at most retentionCount
records, at most retentionBytes total bytes. -/
def suffixOK (entries : List RecordMeta) (cfg : GCCfg) (now : Int) (j : Nat) : Prop :=
  (cfg.retentionDays > 0 → ∀ e ∈ entries.drop j,
    now - cfg.retentionDays * nsPerDay ≤ e.requested) ∧
  (cfg.retentionCount > 0 → ((entries.drop j).length : Int) ≤ cfg.retentionCount) ∧
  (cfg.retentionBytes > 0 → (sumSizes (entries.drop j) : Int) ≤ cfg.retentionBytes)


theorem computeKeepStart_eq (entries : List RecordMeta) (cfg : GCCfg) (now : Int) :
    computeKeepStart entries cfg now =
      min (max (max
        (if cfg.retentionDays > 0 then
          searchGE entries (now - cfg.retentionDays * nsPerDay) else 0)
        (if cfg.retentionCount > 0 ∧ (entries.length : Int) > cfg.retentionCount then
          ((entries.length : Int) - cfg.retentionCount).toNat else 0))
        (if cfg.retentionBytes > 0 ∧ (sumSizes entries : Int) > cfg.retentionBytes then
          bytesKeep (entries.map (fun e => e.size)) (sumSizes entries)
            cfg.retentionBytes else 0))
      entries.length := by
  unfold computeKeepStart
  by_cases h1 : cfg.retentionDays > 0 <;>
    by_cases h2 : cfg.retentionCount > 0 ∧ (entries.length : Int) > cfg.retentionCount <;>
      by_cases h3 : cfg.retentionBytes > 0 ∧ (sumSizes entries : Int) > cfg.retentionBytes <;>
        simp [h1, h2, h3]

theorem computeKeepStart_suffixOK {entries : List RecordMeta}
    (hs : List.Pairwise RecLE entries) (cfg : GCCfg) (now : Int) :
    suffixOK entries cfg now (computeKeepStart entries cfg now) := by
  have hk := computeKeepStart_eq entries cfg now
  refine ⟨?_, ?_, ?_⟩
  · intro hd e he
    have hlen := searchGE_le_length entries (now - cfg.retentionDays * nsPerDay)
    have hkd : searchGE entries (now - cfg.retentionDays * nsPerDay) ≤
        computeKeepStart entries cfg now := by
      rw [hk]
      simp only [if_pos hd]
      omega
    exact searchGE_suffix hs _ e (mem_drop_mono hkd he)
  · intro hc
    rw [List.length_drop]
    by_cases hgt : (entries.length : Int) > cfg.retentionCount
    · have hkc : ((entries.length : Int) - cfg.retentionCount).toNat ≤
          computeKeepStart entries cfg now := by
        rw [hk]
        simp only [if_pos (And.intro hc hgt)]
        omega
      omega
    · omega
  · intro hb
    by_cases hgt : (sumSizes entries : Int) > cfg.retentionBytes
    · have hkb : bytesKeep (entries.map (fun e => e.size)) (sumSizes entries)
          cfg.retentionBytes ≤ computeKeepStart entries cfg now := by
        have hlen := bytesKeep_le_length (entries.map (fun e => e.size))
          (sumSizes entries) cfg.retentionBytes
        rw [List.length_map] at hlen
        rw [hk]
        simp only [if_pos (And.intro hb hgt)]
        omega
      have h1 : ((entries.map (fun e => e.size)).drop
            (computeKeepStart entries cfg now)).sum ≤
          ((entries.map (fun e => e.size)).drop
            (bytesKeep (entries.map (fun e => e.size)) (sumSizes entries)
              cfg.retentionBytes)).sum :=
        sum_drop_le_sum_drop _ hkb
      have h2 := bytesKeep_suffix (entries.map (fun e => e.size)) (sumSizes entries)
        cfg.retentionBytes (by simp [sumSizes]) (le_of_lt hb)
      rw [sumSizes_drop]
      exact le_trans (Nat.cast_le.mpr h1) h2
    · have h1 : sumSizes (entries.drop (computeKeepStart entries cfg now)) ≤
          sumSizes entries := by
        rw [sumSizes_drop]
        have := sum_drop_le_sum_drop (entries.map (fun e => e.size))
          (Nat.zero_le (computeKeepStart entries cfg now))
        simpa [sumSizes] using this
      omega

theorem computeKeepStart_min {entries : List RecordMeta} (cfg : GCCfg) (now : Int)
    {j : Nat} (hj : suffixOK entries cfg now j) :
    computeKeepStart entries cfg now ≤ j := by
  by_contra hlt
  push_neg at hlt
  rw [computeKeepStart_eq] at hlt
  have h1 : j < max (max
      (if cfg.retentionDays > 0 then
        searchGE entries (now - cfg.retentionDays * nsPerDay) else 0)
      (if cfg.retentionCount > 0 ∧ (entries.length : Int) > cfg.retentionCount then
        ((entries.length : Int) - cfg.retentionCount).toNat else 0))
      (if cfg.retentionBytes > 0 ∧ (sumSizes entries : Int) > cfg.retentionBytes then
        bytesKeep (entries.map (fun e => e.size)) (sumSizes entries)
          cfg.retentionBytes else 0) :=
    lt_of_lt_of_le hlt (min_le_left _ _)
  rcases lt_max_iff.mp h1 with h2 | hby
  · rcases lt_max_iff.mp h2 with hd | hc
    · by_cases hg : cfg.retentionDays > 0
      · rw [if_pos hg] at hd
        rcases searchGE_min hd with ⟨e, he, helt⟩
        exact absurd (hj.1 hg e he) (not_le.mpr helt)
      · rw [if_neg hg] at hd
        omega
    · by_cases hg : cfg.retentionCount > 0 ∧ (entries.length : Int) > cfg.retentionCount
      · rw [if_pos hg] at hc
        have := hj.2.1 hg.1
        rw [List.length_drop] at this
        omega
      · rw [if_neg hg] at hc
        omega
  · by_cases hg : cfg.retentionBytes > 0 ∧ (sumSizes entries : Int) > cfg.retentionBytes
    · rw [if_pos hg] at hby
      have := bytesKeep_min (entries.map (fun e => e.size)) (sumSizes entries)
        cfg.retentionBytes (by simp [sumSizes]) hby
      rw [← sumSizes_drop] at this
      exact absurd (hj.2.2 hg.1) (not_le.mpr this)
    · rw [if_neg hg] at hby
      omega


theorem mem_drop_iff_of_nodup {l : List RecordMeta} {k : Nat}
    (hnodup : (l.map (fun r => r.id)).Nodup) (r : RecordMeta) :
    (r ∈ l ∧ r.id ∉ (l.take k).map (fun e => e.id)) ↔ r ∈ l.drop k := by
  constructor
  · rintro ⟨hmem, hid⟩
    rw [← List.take_append_drop k l] at hmem
    rcases List.mem_append.mp hmem with htake | hdrop
    · exact absurd (List.mem_map_of_mem _ htake) hid
    · exact hdrop
  · intro hdrop
    refine ⟨List.mem_of_mem_drop hdrop, ?_⟩
    rw [← List.take_append_drop k l, List.map_append] at hnodup
    have hdisj := List.disjoint_of_nodup_append hnodup
    intro hin
    exact hdisj hin (List.mem_map_of_mem _ hdrop)

theorem runGC_kept (st : GCLogState) (cfg : GCCfg) (now : Int) :
    (runGCWithConfig st cfg now).2.kept =
      (sortRecords st.records).drop
        (computeKeepStart (sortRecords st.records) cfg now) := by
  by_cases he : (sortRecords st.records).isEmpty
  · have h0 : sortRecords st.records = [] := List.isEmpty_iff.mp he
    simp [runGCWithConfig, h0]
  · by_cases hz : computeKeepStart (sortRecords st.records) cfg now = 0
    · simp [runGCWithConfig, he, hz]
    · simp [runGCWithConfig, he, hz]

theorem runGC_records_mem (st : GCLogState) (cfg : GCCfg) (now : Int)
    (hnodup : ((sortRecords st.records).map (fun r => r.id)).Nodup)
    (r : RecordMeta) :
    r ∈ (runGCWithConfig st cfg now).1.records ↔
      r ∈ (sortRecords st.records).drop
        (computeKeepStart (sortRecords st.records) cfg now) := by
  have hperm : ∀ a : RecordMeta, a ∈ st.records ↔ a ∈ sortRecords st.records :=
    fun a => (List.Perm.mem_iff (sortRecords_perm st.records)).symm
  by_cases he : (sortRecords st.records).isEmpty
  · have h0 : sortRecords st.records = [] := List.isEmpty_iff.mp he
    have h1 : st.records = [] := by
      have := sortRecords_perm st.records
      rw [h0] at this
      exact (List.Perm.nil_eq this).symm
    have hrun : runGCWithConfig st cfg now =
        (st, { kept := sortRecords st.records, dropped := [], truncatedAt := none }) := by
      simp [runGCWithConfig, he]
    rw [hrun, h0, h1]
    simp
  · by_cases hz : computeKeepStart (sortRecords st.records) cfg now = 0
    · have hrun : runGCWithConfig st cfg now =
          (st, { kept := sortRecords st.records, dropped := [], truncatedAt := none }) := by
        simp [runGCWithConfig, he, hz]
      rw [hrun, hz, List.drop_zero]
      exact hperm r
    · have hmain : (runGCWithConfig st cfg now).1.records =
          st.records.filter (fun q =>
            !((((sortRecords st.records).take
              (computeKeepStart (sortRecords st.records) cfg now)).map
                (fun e => e.id)).contains q.id)) := by
        simp [runGCWithConfig, he, hz]
      rw [hmain, List.mem_filter]
      rw [← mem_drop_iff_of_nodup hnodup r]
      constructor
      · rintro ⟨hmem, hbool⟩
        refine ⟨(hperm r).mp hmem, ?_⟩
        intro hin
        rw [Bool.not_eq_true', ← Bool.not_eq_true] at hbool
        exact hbool (List.elem_iff.mpr hin)
      · rintro ⟨hmem, hid⟩
        refine ⟨(hperm r).mpr hmem, ?_⟩
        rw [Bool.not_eq_true', ← Bool.not_eq_true]
        intro hcon
        exact hid (List.elem_iff.mp hcon)

theorem runGC_truncated (st : GCLogState) (cfg : GCCfg) (now : Int)
    (h0 : 0 < computeKeepStart (sortRecords st.records) cfg now)
    (hlen : computeKeepStart (sortRecords st.records) cfg now <
      (sortRecords st.records).length) :
    (runGCWithConfig st cfg now).2.truncatedAt =
      some (((sortRecords st.records).getD
        (computeKeepStart (sortRecords st.records) cfg now)
        ⟨"", 0, 0, 0⟩).position) ∧
    (runGCWithConfig st cfg now).1.wal = st.wal.filter (fun e =>
      !(e.1 < ((sortRecords st.records).getD
        (computeKeepStart (sortRecords st.records) cfg now)
        ⟨"", 0, 0, 0⟩).position)) := by
  have he : ¬ (sortRecords st.records).isEmpty := by
    intro hemp
    have h00 : sortRecords st.records = [] := List.isEmpty_iff.mp hemp
    rw [h00] at hlen
    simp at hlen
  have hz : ¬ computeKeepStart (sortRecords st.records) cfg now = 0 := by omega
  constructor
  · simp [runGCWithConfig, he, hz, hlen]
  · simp [runGCWithConfig, he, hz, hlen]


/-- gcStW is a concrete two-record log state used to exercise the GC run. -/
def gcStW : GCLogState :=
  { records := [⟨"b", 2, 10, 5⟩, ⟨"a", 1, 0, 5⟩]
    wal := [(0, "x"), (10, "y")]
    nextPosition := 20 }

/-- gcCfgW keeps only the most recent record (retention_count = 1). -/
def gcCfgW : GCCfg :=
  { retentionDays := 0
    retentionCount := 1
    retentionBytes := 0 }

/-- C8: for every GC run of the approval RecordLog, ordering the records by
requested time (ties by id), the computed keep index is the least index whose
suffix satisfies every active retention threshold (day cutoff, count, bytes),
the run keeps exactly that suffix - both in the reported kept list and in the
surviving record map - and, when some records are dropped and some kept, the
WAL is truncated at the position of the earliest kept record. -/
theorem c8_gc_keeps_threshold_suffix (st : GCLogState) (cfg : GCCfg) (now : Int)
    (hnodup : ((sortRecords st.records).map (fun r => r.id)).Nodup) :
    suffixOK (sortRecords st.records) cfg now
      (computeKeepStart (sortRecords st.records) cfg now) ∧
    (∀ j, suffixOK (sortRecords st.records) cfg now j →
      computeKeepStart (sortRecords st.records) cfg now ≤ j) ∧
    (runGCWithConfig st cfg now).2.kept =
      (sortRecords st.records).drop
        (computeKeepStart (sortRecords st.records) cfg now) ∧
    (∀ r, r ∈ (runGCWithConfig st cfg now).1.records ↔
      r ∈ (sortRecords st.records).drop
        (computeKeepStart (sortRecords st.records) cfg now)) ∧
    (0 < computeKeepStart (sortRecords st.records) cfg now →
      computeKeepStart (sortRecords st.records) cfg now <
        (sortRecords st.records).length →
      (runGCWithConfig st cfg now).2.truncatedAt =
        some (((sortRecords st.records).getD
          (computeKeepStart (sortRecords st.records) cfg now)
          ⟨"", 0, 0, 0⟩).position)) :=
  ⟨computeKeepStart_suffixOK (sortRecords_pairwise _) cfg now,
    fun _ hj => computeKeepStart_min cfg now hj,
    runGC_kept st cfg now,
    fun r => runGC_records_mem st cfg now hnodup r,
    fun h0 hlen => (runGC_truncated st cfg now h0 hlen).1⟩

/-- Witness: on a two-record log with retention_count = 1, the GC run keeps
exactly the most recent record and truncates the WAL at its position. -/
theorem c8_gc_keeps_threshold_suffix_witness :
    ((sortRecords gcStW.records).map (fun r => r.id)).Nodup ∧
    (suffixOK (sortRecords gcStW.records) gcCfgW 100
      (computeKeepStart (sortRecords gcStW.records) gcCfgW 100) ∧
    (∀ j, suffixOK (sortRecords gcStW.records) gcCfgW 100 j →
      computeKeepStart (sortRecords gcStW.records) gcCfgW 100 ≤ j) ∧
    (runGCWithConfig gcStW gcCfgW 100).2.kept =
      (sortRecords gcStW.records).drop
        (computeKeepStart (sortRecords gcStW.records) gcCfgW 100) ∧
    (∀ r, r ∈ (runGCWithConfig gcStW gcCfgW 100).1.records ↔
      r ∈ (sortRecords gcStW.records).drop
        (computeKeepStart (sortRecords gcStW.records) gcCfgW 100)) ∧
    (0 < computeKeepStart (sortRecords gcStW.records) gcCfgW 100 →
      computeKeepStart (sortRecords gcStW.records) gcCfgW 100 <
        (sortRecords gcStW.records).length →
      (runGCWithConfig gcStW gcCfgW 100).2.truncatedAt =
        some (((sortRecords gcStW.records).getD
          (computeKeepStart (sortRecords gcStW.records) gcCfgW 100)
          ⟨"", 0, 0, 0⟩).position))) :=
  ⟨by decide, c8_gc_keeps_threshold_suffix gcStW gcCfgW 100 (by decide)⟩


end AgentSDK
